import Mathlib

/-!
Verification development for the `ipfs-pack-core` content-addressing engine
(`src/packages/ipfs-pack-core/src/index.ts`): a shallow embedding of the
directory walker, the UnixFS import pipeline, the CAR/manifest emission, the
HTML rewriter and the index stamper, together with theorems settling the
specification's claims about them.

Strings and file bytes are modelled as `List Char`; a directory read off disk
is a finite tree whose entry lists are in `fs.readdirSync` enumeration order
(the tree is a mutual inductive so every function on it is structurally
recursive and computable by the kernel). The external libraries
`ipfs-unixfs-importer` and `@ipld/car` are not part of the repository; the
definitions that stand in for them are modelled from the specification's
description of the importer contract and the CAR v1 layout, and are marked as
such in their doc comments.
-/

set_option maxHeartbeats 1000000

namespace IpfsPack

mutual
/-- Filesystem tree: the input directory structure read by the inline walkers of
`packDirectoryToCar`, `computeDirectoryManifest` and `writeIpfsAddressedHtml`. -/
inductive FSTree where
  | file (content : List Char)
  | dir (entries : FSEntries)
/-- The entries of one directory, in `fs.readdirSync(dir, { withFileTypes: true })`
enumeration order. -/
inductive FSEntries where
  | nil
  | cons (name : List Char) (t : FSTree) (rest : FSEntries)
end

/-- `path.relative(outDir, abs).replace(/\\/g, '/')`-style forward-slash join of a
parent relative path and an entry name. -/
def joinRel (pre n : List Char) : List Char :=
  if pre = [] then n else pre ++ '/' :: n

/-- The exclusion set of `packDirectoryToCar` (line 55): the exact root-relative
names `bundle.car`, `ipfs-manifest.json`, `ipfs-debug.json`. -/
def excludedAtRoot (rel : List Char) : Bool :=
  rel = "bundle.car".data || rel = "ipfs-manifest.json".data || rel = "ipfs-debug.json".data

/-- The inline directory walker of `packDirectoryToCar` (lines 57-74): depth-first in
`readdirSync` order, directories recursed in place, files pushed with their
forward-slash relative path unless that path is in the exclusion set. The walker in
`computeDirectoryManifest` (lines 276-292) is the identical inline code. -/
def walkAux : List Char → FSEntries → List (List Char × List Char)
  | _, FSEntries.nil => []
  | pre, FSEntries.cons n (FSTree.dir es) rest => walkAux (joinRel pre n) es ++ walkAux pre rest
  | pre, FSEntries.cons n (FSTree.file b) rest =>
      (if excludedAtRoot (joinRel pre n) then [] else [(joinRel pre n, b)]) ++ walkAux pre rest

/-- The same walk with the exclusion set disabled: the full file set of the input
directory, used to state exactly what the exclusion in `walkAux` removes. -/
def allFilesAux : List Char → FSEntries → List (List Char × List Char)
  | _, FSEntries.nil => []
  | pre, FSEntries.cons n (FSTree.dir es) rest =>
      allFilesAux (joinRel pre n) es ++ allFilesAux pre rest
  | pre, FSEntries.cons n (FSTree.file b) rest => (joinRel pre n, b) :: allFilesAux pre rest

/-- Does a name avoid the path separator? -/
def noSlash : List Char → Bool
  | [] => true
  | c :: cs => !(c == '/') && noSlash cs

/-- A legal on-disk entry name: nonempty and without the path separator. -/
def validName (n : List Char) : Bool :=
  !n.isEmpty && noSlash n

/-- The leading path segment of a forward-slash relative path. -/
def firstSeg : List Char → List Char
  | [] => []
  | c :: cs => if c = '/' then [] else c :: firstSeg cs

/-- Does a directory already list this entry name? -/
def hasName (n : List Char) : FSEntries → Bool
  | FSEntries.nil => false
  | FSEntries.cons m _ rest => m == n || hasName n rest

/-- Well-formedness of a directory tree as the filesystem guarantees it: every entry
name is a legal name and names are unique within each directory. -/
def wfEntries : FSEntries → Bool
  | FSEntries.nil => true
  | FSEntries.cons n (FSTree.file _) rest => validName n && !hasName n rest && wfEntries rest
  | FSEntries.cons n (FSTree.dir es) rest =>
      validName n && wfEntries es && !hasName n rest && wfEntries rest

/-- Modelled from the spec: CID strings of the UnixFS importer (the external
`ipfs-unixfs-importer` package). CIDs are deterministic content addresses; the base32
SHA-256 multihash string is abstracted to an injective tagged structural encoding of
the addressed content. A raw-leaf CID (CIDv1, `raw` codec) is determined by the leaf
bytes. -/
def rawCid (b : List Char) : List Char := 'r' :: b

/-- Modelled from the spec: the fixed chunk size, 256 KiB. -/
def chunkSize : Nat := 262144

/-- Modelled from the spec: the fixed-size chunker (fuel-driven for structural
recursion; the fuel is the input length, always sufficient). -/
def chunkListAux : Nat → List Char → List (List Char)
  | 0, _ => []
  | _, [] => []
  | fuel+1, s => s.take chunkSize :: chunkListAux fuel (s.drop chunkSize)

def chunkList (s : List Char) : List (List Char) := chunkListAux s.length s

/-- Separator used by the abstract CID encodings. -/
def sepChar : Char := Char.ofNat 0

/-- Modelled from the spec: CID of a dag-pb UnixFS `file` node over its ordered child
CIDs (block sizes abstracted away with the digest). -/
def fileNodeCid (children : List (List Char)) : List Char :=
  'F' :: children.flatMap (fun c => c ++ [sepChar])

def groupChunksAux : Nat → List (List Char) → List (List (List Char))
  | 0, _ => []
  | _, [] => []
  | fuel+1, cs => cs.take 174 :: groupChunksAux fuel (cs.drop 174)

/-- Modelled from the spec: the balanced layout with at most 174 children per node —
parents are built over consecutive groups of 174 until a single root remains.
Returns the root together with the accumulated internal-node CIDs. -/
def buildBalancedAux : Nat → List (List Char) → List (List Char) → List Char × List (List Char)
  | 0, cs, acc => (fileNodeCid cs, acc ++ [fileNodeCid cs])
  | fuel+1, cs, acc =>
      match cs with
      | [c] => (c, acc)
      | cs =>
          let parents := (groupChunksAux cs.length cs).map fileNodeCid
          buildBalancedAux fuel parents (acc ++ parents)

/-- Modelled from the spec: a file's DAG — a single raw block when the content fits
one chunk, otherwise raw chunks assembled under balanced dag-pb file nodes. Returns
the file's top CID and the blocks `(cid, bytes)` the importer puts for it; the bytes
of a dag-pb node are abstracted by the same injective encoding as its CID. -/
def fileDag (b : List Char) : List Char × List (List Char × List Char) :=
  if b.length ≤ chunkSize then (rawCid b, [(rawCid b, b)])
  else
    let chunks := chunkList b
    let tn := buildBalancedAux chunks.length (chunks.map rawCid) []
    (tn.1, chunks.map (fun c => (rawCid c, c)) ++ tn.2.map (fun n => (n, n)))

def fileTopCid (b : List Char) : List Char := (fileDag b).1

mutual
/-- Modelled from the spec: the directory trie the importer reconstructs from the
walker's forward-slash relative paths before encoding directory nodes. -/
inductive Trie where
  | file (content : List Char)
  | dir (entries : TrieEntries)
/-- The child entries of one reconstructed directory, in first-insertion order. -/
inductive TrieEntries where
  | nil
  | cons (name : List Char) (t : Trie) (rest : TrieEntries)
end

def splitSegsAux : List Char → List Char → List (List Char)
  | [], cur => [cur.reverse]
  | c :: rest, cur =>
      if c = '/' then cur.reverse :: splitSegsAux rest [] else splitSegsAux rest (c :: cur)

/-- Split a forward-slash relative path into its name segments. -/
def splitSegs (p : List Char) : List (List Char) := splitSegsAux p []

/-- Update (or create) the entry named `s` in a reconstructed directory. -/
def entriesUpdate (s : List Char) (f : Trie → Trie) : TrieEntries → TrieEntries
  | TrieEntries.nil => TrieEntries.cons s (f (Trie.dir TrieEntries.nil)) TrieEntries.nil
  | TrieEntries.cons n t rest =>
      if n = s then TrieEntries.cons n (f t) rest
      else TrieEntries.cons n t (entriesUpdate s f rest)

/-- Modelled from the spec: insert one file at a segment path into the reconstructed
directory trie. -/
def trieInsert : List (List Char) → List Char → Trie → Trie
  | [], b, _ => Trie.file b
  | s :: rest, b, Trie.file _ => Trie.dir (entriesUpdate s (trieInsert rest b) TrieEntries.nil)
  | s :: rest, b, Trie.dir es => Trie.dir (entriesUpdate s (trieInsert rest b) es)

/-- Modelled from the spec: the importer's wrapper trie over the walked file set. -/
def trieOf (files : List (List Char × List Char)) : Trie :=
  files.foldl (fun t f => trieInsert (splitSegs f.1) f.2 t) (Trie.dir TrieEntries.nil)

/-- Lexicographic order on names, used for UnixFS directory-link canonicalization. -/
def strLe : List Char → List Char → Bool
  | [], _ => true
  | _ :: _, [] => false
  | a :: as, b :: bs => if a = b then strLe as bs else decide (a.val < b.val)

def insertSorted (x : List Char × List Char) :
    List (List Char × List Char) → List (List Char × List Char)
  | [] => [x]
  | y :: ys => if strLe x.1 y.1 then x :: y :: ys else y :: insertSorted x ys

/-- Sort directory links lexicographically by name (UnixFS canonicalization). -/
def sortLinks (ls : List (List Char × List Char)) : List (List Char × List Char) :=
  ls.foldr insertSorted []

/-- Modelled from the spec: a directory node's CID is determined by its named links,
sorted lexicographically by name. -/
def dirCidOfLinks (ls : List (List Char × List Char)) : List Char :=
  'D' :: (sortLinks ls).flatMap (fun l => l.1 ++ sepChar :: l.2 ++ [sepChar])

/-- The named links of a reconstructed directory: each child's name with its CID. -/
def linksOf : TrieEntries → List (List Char × List Char)
  | TrieEntries.nil => []
  | TrieEntries.cons n (Trie.file b) rest => (n, fileTopCid b) :: linksOf rest
  | TrieEntries.cons n (Trie.dir es) rest => (n, dirCidOfLinks (linksOf es)) :: linksOf rest

/-- Modelled from the spec: the CID of a node of the reconstructed DAG. -/
def cidOfTrie : Trie → List Char
  | Trie.file b => fileTopCid b
  | Trie.dir es => dirCidOfLinks (linksOf es)

/-- Modelled from the spec: the blocks the importer puts into the block store for the
children of one directory — each file's leaf and node blocks and one dag-pb block per
subdirectory (node bytes abstracted by the same injective encoding as the CID). -/
def entriesBlocks : TrieEntries → List (List Char × List Char)
  | TrieEntries.nil => []
  | TrieEntries.cons _ (Trie.file b) rest => (fileDag b).2 ++ entriesBlocks rest
  | TrieEntries.cons _ (Trie.dir es) rest =>
      (entriesBlocks es ++ [(dirCidOfLinks (linksOf es), dirCidOfLinks (linksOf es))]) ++
      entriesBlocks rest

/-- Modelled from the spec: all blocks of the DAG under a node, the node's own block
last for a directory (including the wrapper). -/
def trieBlocks : Trie → List (List Char × List Char)
  | Trie.file b => (fileDag b).2
  | Trie.dir es => entriesBlocks es ++ [(cidOfTrie (Trie.dir es), cidOfTrie (Trie.dir es))]

/-- Modelled from the spec: the importer's record stream — one `(relPath, cid)` record
per input file, and exactly one synthetic wrapper-directory record whose path is the
empty string, emitted last; its CID is the root of the wrapped DAG. -/
def importerRecords (files : List (List Char × List Char)) : List (List Char × List Char) :=
  files.map (fun f => (f.1, fileTopCid f.2)) ++ [([], cidOfTrie (trieOf files))]

/-- `MemoryBlockstore.put` (lines 13-15): JS `Map.set` keyed by the CID string —
overwrite in place when the key is present, append otherwise. -/
def storePut (st : List (List Char × List Char)) (k v : List Char) :
    List (List Char × List Char) :=
  if st.any (fun e => e.1 == k) then st.map (fun e => if e.1 = k then (k, v) else e)
  else st ++ [(k, v)]

/-- The block store contents after the import completes: every DAG block put through
`MemoryBlockstore.put`. `MemoryBlockstore.blocks` (lines 24-28) iterates exactly this
keyed sequence. -/
def importStore (files : List (List Char × List Char)) : List (List Char × List Char) :=
  (trieBlocks (trieOf files)).foldl (fun st b => storePut st b.1 b.2) []

/-- JS object property assignment `fileCids[entry.path] = cid` (line 105): overwrite in
place when the key is present, append otherwise (JS objects keep first-insertion key
order). -/
def recordAssign (m : List (List Char × List Char)) (k v : List Char) :
    List (List Char × List Char) :=
  if m.any (fun e => e.1 == k) then m.map (fun e => if e.1 = k then (k, v) else e)
  else m ++ [(k, v)]

/-- The per-record fold of `packDirectoryToCar` (lines 101-107): the empty path sets
the root CID, any other path is assigned into `fileCids`. The fold in
`computeDirectoryManifest` (lines 317-322) is identical. -/
def foldRecords (recs : List (List Char × List Char)) :
    Option (List Char) × List (List Char × List Char) :=
  recs.foldl
    (fun st r => if r.1 = [] then (some r.2, st.2) else (st.1, recordAssign st.2 r.1 r.2))
    (none, [])

/-- The left brace character (written by code point to keep string literals plain). -/
def lbrace : Char := Char.ofNat 123

/-- The right brace character. -/
def rbrace : Char := Char.ofNat 125

/-- The backslash character. -/
def bslash : Char := Char.ofNat 92

/-- JSON string-body escaping, abstracted to the quote and backslash escapes. -/
def jsonEscape (s : List Char) : List Char :=
  s.flatMap (fun c => if c = '"' || c = bslash then [bslash, c] else [c])

def jsonStr (s : List Char) : List Char := '"' :: jsonEscape s ++ ['"']

def joinSep (sep : List Char) : List (List Char) → List Char
  | [] => []
  | [x] => x
  | x :: y :: xs => x ++ sep ++ joinSep sep (y :: xs)

/-- `JSON.stringify({ root, files }, null, 2)` (line 133): the two-space
pretty-printed manifest bytes, files in `fileCids` key order. -/
def manifestJson (root : List Char) (files : List (List Char × List Char)) : List Char :=
  lbrace :: "\n  \"root\": ".data ++ jsonStr root ++ ",\n  \"files\": ".data ++
  (if files.isEmpty then [lbrace, rbrace] else
    lbrace :: "\n".data ++
    joinSep ",\n".data
      (files.map (fun f => "    ".data ++ jsonStr f.1 ++ ": ".data ++ jsonStr f.2)) ++
    "\n  ".data ++ [rbrace]) ++
  "\n".data ++ [rbrace]

/-- Modelled from the spec: the CAR v1 stream produced through `CarWriter` (the
external `@ipld/car` package) — a header declaring the roots passed to
`CarWriter.create` and one body block per `writer.put`, in put order. -/
structure CarFile where
  roots : List (List Char)
  blocks : List (List Char × List Char)

/-- Everything `packDirectoryToCar` produces: the returned `PackResult` fields plus
the CAR stream and the manifest bytes it writes. -/
structure PackOut where
  rootCid : List Char
  fileCids : List (List Char × List Char)
  carPath : List Char
  manifestPath : List Char
  car : CarFile
  manifestBytes : List Char

/-- `packDirectoryToCar` (lines 43-147): walk the directory, import the file set,
fold the records into the root CID and `fileCids`, fail with
`Failed to compute root CID` when no empty-path record appeared, then write the CAR
(every stored block, the root CID in the header) and the manifest. -/
def packDirectoryToCar (es : FSEntries) (carPath manifestPath : List Char) :
    Except (List Char) PackOut :=
  let files := walkAux [] es
  let recs := importerRecords files
  let st := foldRecords recs
  match st.1 with
  | none => Except.error "Failed to compute root CID".data
  | some root =>
      Except.ok {
        rootCid := root
        fileCids := st.2
        carPath := carPath
        manifestPath := manifestPath
        car := { roots := [root], blocks := importStore files }
        manifestBytes := manifestJson root st.2 }

/-- What `computeDirectoryManifest` produces: the returned fields plus the manifest
bytes it writes. -/
structure ComputeOut where
  rootCid : List Char
  fileCids : List (List Char × List Char)
  manifestPath : List Char
  manifestBytes : List Char

/-- `computeDirectoryManifest` (lines 266-340): the identical walk, import and record
fold (the source duplicates the walker and the fold inline, character for character)
but writes only the manifest — no CAR. -/
def computeDirectoryManifest (es : FSEntries) (manifestPath : List Char) :
    Except (List Char) ComputeOut :=
  let files := walkAux [] es
  let recs := importerRecords files
  let st := foldRecords recs
  match st.1 with
  | none => Except.error "Failed to compute root CID".data
  | some root =>
      Except.ok { rootCid := root, fileCids := st.2, manifestPath := manifestPath,
                  manifestBytes := manifestJson root st.2 }

/-- Strip a leading pattern: `some` of the remainder when `pat` is an exact leading
segment of `s`, `none` otherwise. -/
def stripStart : List Char → List Char → Option (List Char)
  | [], s => some s
  | _ :: _, [] => none
  | p :: ps, c :: cs => if p = c then stripStart ps cs else none

/-- JS `String.prototype.includes`: does `pat` occur contiguously in the string? -/
def containsSubstr (pat : List Char) : List Char → Bool
  | [] => pat.isEmpty
  | c :: rest => (stripStart pat (c :: rest)).isSome || containsSubstr pat rest

/-- JS `String.prototype.replace` with a plain-string pattern: replace the first
occurrence of `target`, leave the string unchanged when there is none. -/
def replaceFirst (target repl : List Char) : List Char → List Char
  | [] => []
  | c :: rest =>
      match stripStart target (c :: rest) with
      | some r => repl ++ r
      | none => c :: replaceFirst target repl rest

/-- The substring `stampIndexWithRootCID` probes for (line 156). -/
def rootCidMarker : List Char := "name=\"ipfs-root-cid\"".data

/-- The meta tag `stampIndexWithRootCID` inserts (line 157), written so that the
marker substring is a definitional component. -/
def metaTag (root : List Char) : List Char :=
  "<meta ".data ++ rootCidMarker ++ " content=\"".data ++ root ++ "\" />".data

/-- The content transform of `stampIndexWithRootCID` (lines 152-160): return the text
unchanged when the marker is already present, otherwise splice the meta tag and a
newline in front of the first `</head>` (a no-op when `</head>` is absent). -/
def stampContent (root html : List Char) : List Char :=
  if containsSubstr rootCidMarker html then html
  else replaceFirst "</head>".data (metaTag root ++ "\n</head>".data) html

/-- `stampIndexWithRootCID` at the file level: `none` models a missing `index.html`
(the function returns without writing, line 154). -/
def stampIndexWithRootCID (root : List Char) : Option (List Char) → Option (List Char)
  | none => none
  | some html => some (stampContent root html)

/-- The three URL styles of the HTML rewriter (line 172). -/
inductive UrlStyle where
  | path
  | scheme
  | schemeFile
deriving DecidableEq

def toLowerStr (s : List Char) : List Char := s.map Char.toLower

/-- The environment style resolution of `writeIpfsAddressedHtml` (lines 185-191):
empty means the default `scheme-file`; `scheme-file`/`file` → scheme-file;
`scheme`/`ipfs` → scheme; anything else → path. -/
def resolveEnvStyle (raw : List Char) : UrlStyle :=
  let lower := toLowerStr raw
  if lower = [] then UrlStyle.schemeFile
  else if lower = "scheme-file".data || lower = "file".data then UrlStyle.schemeFile
  else if lower = "scheme".data || lower = "ipfs".data then UrlStyle.scheme
  else UrlStyle.path

/-- `options?.urlStyle ?? envStyle` (line 192). -/
def resolveStyle (envRaw : List Char) (opt : Option UrlStyle) : UrlStyle :=
  opt.getD (resolveEnvStyle envRaw)

/-- `ipfsPrefix` (line 193): `ipfs://<root>/` for the scheme style, `/ipfs/<root>/`
otherwise. -/
def urlBase (style : UrlStyle) (root : List Char) : List Char :=
  if style = UrlStyle.scheme then "ipfs://".data ++ root ++ "/".data
  else "/ipfs/".data ++ root ++ "/".data

/-- The two quote characters the rewriter regex accepts. -/
def isQuote (c : Char) : Bool := c = '"' || c = Char.ofNat 39

/-- After an attribute name and `=`: require a quote, the exact candidate text, and
the same closing quote (the `(['"])…\2` part of the regex on line 226). -/
def matchAfterAttr (cand : List Char) : List Char → Option (Char × List Char)
  | [] => none
  | q :: rest =>
      if isQuote q then
        match stripStart cand rest with
        | some (q2 :: rest2) => if q2 = q then some (q, rest2) else none
        | _ => none
      else none

/-- One regex-match attempt at the head of `s` for the pattern
`(src|href)=(['"])<cand>\2` (line 226): returns the matched attribute name, the quote
character, and the remainder after the match. -/
def matchBinding (cand s : List Char) : Option (List Char × Char × List Char) :=
  match stripStart "src=".data s with
  | some r => (matchAfterAttr cand r).map (fun x => ("src".data, x.1, x.2))
  | none =>
      match stripStart "href=".data s with
      | some r => (matchAfterAttr cand r).map (fun x => ("href".data, x.1, x.2))
      | none => none

/-- The global regex replace of line 227: scan left to right, replace each
non-overlapping match `attr=<q><cand><q>` by `attr=<q><url><q>`, resume after the
match. Fueled for structural recursion; the input length is always enough fuel. -/
def replaceBindingsFuel (url cand : List Char) : Nat → List Char → List Char
  | 0, s => s
  | _+1, [] => []
  | fuel+1, c :: rest =>
      match matchBinding cand (c :: rest) with
      | some x => x.1 ++ '=' :: x.2.1 :: (url ++ x.2.1 :: replaceBindingsFuel url cand fuel x.2.2)
      | none => c :: replaceBindingsFuel url cand fuel rest

def replaceBindings (cand url s : List Char) : List Char :=
  replaceBindingsFuel url cand s.length s

/-- The candidate URL shapes tried for one manifest path (lines 220-224):
`rel`, `./rel`, `/rel`. -/
def candidatesFor (rel : List Char) : List (List Char) :=
  [rel, "./".data ++ rel, "/".data ++ rel]

def lookupAssoc (m : List (List Char × List Char)) (k : List Char) : Option (List Char) :=
  match m with
  | [] => none
  | e :: rest => if e.1 = k then some e.2 else lookupAssoc rest k

/-- The replacement URL for one manifest path (lines 228-234): under `scheme-file`,
`ipfs://<fileCid>` when the manifest value is truthy, the prefix form as fallback;
under the other styles always `<ipfsPrefix><rel>`. -/
def urlForRel (style : UrlStyle) (root : List Char) (files : List (List Char × List Char))
    (rel : List Char) : List Char :=
  match style with
  | UrlStyle.schemeFile =>
      match lookupAssoc files rel with
      | some cid => if cid = [] then urlBase style root ++ rel else "ipfs://".data ++ cid
      | none => urlBase style root ++ rel
  | _ => urlBase style root ++ rel

/-- The rewrite loop of `writeIpfsAddressedHtml` (lines 219-237): for each manifest
path in key order, for each candidate shape, a global replace applied to the
accumulated, progressively rewritten text. -/
def rewriteHtml (style : UrlStyle) (root : List Char) (files : List (List Char × List Char))
    (html : List Char) : List Char :=
  files.foldl
    (fun acc f =>
      (candidatesFor f.1).foldl
        (fun acc2 cand => replaceBindings cand (urlForRel style root files f.1) acc2) acc)
    html

/-- The `<base>` tag of line 250. -/
def baseTag (style : UrlStyle) (root : List Char) : List Char :=
  "<base href=\"".data ++ urlBase style root ++ "\">".data

/-- The content written for one HTML file (lines 239-259): the rewritten text when a
replacement occurred; otherwise the original text under `scheme-file`, and under the
other styles the base tag spliced before the first `</head>` when the text contains
`<head`, or prepended when it does not. -/
def writeIpfsAddressedHtmlFile (style : UrlStyle) (root : List Char)
    (files : List (List Char × List Char)) (html : List Char) : List Char :=
  let updated := rewriteHtml style root files html
  if updated = html then
    match style with
    | UrlStyle.schemeFile => html
    | _ =>
        if containsSubstr "<head".data html then
          replaceFirst "</head>".data (baseTag style root ++ "\n</head>".data) html
        else baseTag style root ++ '\n' :: html
  else updated

/-- The sibling output path of lines 239-240: replace a final exact `.html` by
`.ipfs.html`, otherwise append `.ipfs.html`. -/
def outPathFor (p : List Char) : List Char :=
  if ".html".data.isSuffixOf p then p.take (p.length - 5) ++ ".ipfs.html".data
  else p ++ ".ipfs.html".data

/-- The HTML-file collection walk of `writeIpfsAddressedHtml` (lines 195-206): every
file whose lower-cased name ends in `.html`. -/
def collectHtmlAux : List Char → FSEntries → List (List Char)
  | _, FSEntries.nil => []
  | pre, FSEntries.cons n (FSTree.dir es) rest =>
      collectHtmlAux (joinRel pre n) es ++ collectHtmlAux pre rest
  | pre, FSEntries.cons n (FSTree.file _) rest =>
      (if ".html".data.isSuffixOf (toLowerStr n) then [joinRel pre n] else []) ++
      collectHtmlAux pre rest

/-- The set of paths one `writeIpfsAddressedHtml` run writes to (lines 242, 248, 257):
exactly the sibling output path of each collected HTML file. -/
def rewriterWrites (es : FSEntries) : List (List Char) :=
  (collectHtmlAux [] es).map outPathFor

/-- No regex match of the binding pattern for `cand` starts at any position of `s`. -/
def noMatch (cand : List Char) : List Char → Bool
  | [] => true
  | c :: rest => (matchBinding cand (c :: rest)).isNone && noMatch cand rest

/-- No regex match of the binding pattern for `cand` starts at any position strictly
inside the leading segment `pre` of `pre ++ tail`. -/
def cleanBefore (cand : List Char) : List Char → List Char → Bool
  | [], _ => true
  | c :: p, tail => (matchBinding cand (c :: (p ++ tail))).isNone && cleanBefore cand p tail

/-- One attribute-binding occurrence in an HTML document: the inert text before it,
the attribute name, the quote character, the manifest key it refers to, and the exact
quoted value (one of that key's candidate shapes). -/
structure Bind where
  u : List Char
  attr : List Char
  q : Char
  rel : List Char
  cand : List Char

/-- Render a decomposed document, displaying the value `v b` inside each binding `b`
(between its original quotes). -/
def renderDoc (v : Bind → List Char) : List Bind → List Char → List Char
  | [], tail => tail
  | b :: bs, tail => b.u ++ (b.attr ++ '=' :: b.q :: (v b ++ b.q :: renderDoc v bs tail))

/-- A document holding bindings of one candidate at the designated places. -/
def withBindings (cand : List Char) :
    List (List Char × List Char × Char) → List Char → List Char
  | [], tail => tail
  | (u, a, q) :: rest, tail => u ++ (a ++ '=' :: q :: (cand ++ q :: withBindings cand rest tail))

/-- The same document with every designated binding's value replaced by `url`. -/
def withUrls (url : List Char) :
    List (List Char × List Char × Char) → List Char → List Char
  | [], tail => tail
  | (u, a, q) :: rest, tail => u ++ (a ++ '=' :: q :: (url ++ q :: withUrls url rest tail))

/-- The designated bindings are exactly the matches of `cand`: every designated
segment carries a legal attribute and a quote, no match of `cand` starts strictly
inside any inert segment, and none starts in the tail. -/
def wfSegs (cand : List Char) : List (List Char × List Char × Char) → List Char → Bool
  | [], tail => noMatch cand tail
  | (u, a, q) :: rest, tail =>
      (a == "src".data || a == "href".data) && isQuote q &&
      cleanBefore cand u (a ++ '=' :: q :: (cand ++ q :: withBindings cand rest tail)) &&
      wfSegs cand rest tail

/-- Regroup a decomposed document for the pass of candidate `c`: bindings currently
displaying `c` become designated segments, every other binding dissolves into the
surrounding inert text. -/
def segsFor (c : List Char) (v : Bind → List Char) :
    List Bind → List Char → List (List Char × List Char × Char) × List Char
  | [], tail => ([], tail)
  | b :: bs, tail =>
      if v b == c then
        ((b.u, b.attr, b.q) :: (segsFor c v bs tail).1, (segsFor c v bs tail).2)
      else
        match segsFor c v bs tail with
        | ([], t2) => ([], b.u ++ (b.attr ++ '=' :: b.q :: (v b ++ b.q :: t2)))
        | ((u2, a2, q2) :: rest, t2) =>
            ((b.u ++ (b.attr ++ '=' :: b.q :: (v b ++ b.q :: u2)), a2, q2) :: rest, t2)

/-- The initial display: every binding shows its own quoted value. -/
def vInit : Bind → List Char := fun b => b.cand

/-- After the pass replacing candidate `c` by `url`: bindings that displayed `c` now
display `url` (exactly the textual effect of the global replace). -/
def flipVal (c url : List Char) (v : Bind → List Char) : Bind → List Char :=
  fun b => if v b == c then url else v b

/-- The full pass list of the rewrite loop (lines 219-237): for each manifest key in
key order, its three candidate shapes in order, each paired with its key. -/
def allPasses (files : List (List Char × List Char)) : List (List Char × List Char) :=
  files.flatMap (fun f => (candidatesFor f.1).map (fun c => (f.1, c)))

/-- Running a list of passes over a text: each pass is the global replace of its
candidate by its key's style URL. -/
def applyPasses (style : UrlStyle) (root : List Char) (files : List (List Char × List Char))
    (ps : List (List Char × List Char)) (s : List Char) : List Char :=
  ps.foldl (fun acc rc => replaceBindings rc.2 (urlForRel style root files rc.1) acc) s

/-- Per-pass well-formedness along a pass list: at each pass, the matches of its
candidate in the current text are exactly the bindings currently displaying it. -/
def passesOk (style : UrlStyle) (root : List Char) (files : List (List Char × List Char)) :
    List (List Char × List Char) → (Bind → List Char) → List Bind → List Char → Bool
  | [], _, _, _ => true
  | rc :: ps, v, binds, tail =>
      wfSegs rc.2 (segsFor rc.2 v binds tail).1 (segsFor rc.2 v binds tail).2 &&
      passesOk style root files ps (flipVal rc.2 (urlForRel style root files rc.1) v) binds tail

/-- The displayed values after a list of passes. -/
def finalVal (style : UrlStyle) (root : List Char) (files : List (List Char × List Char)) :
    List (List Char × List Char) → (Bind → List Char) → Bind → List Char
  | [], v => v
  | rc :: ps, v => finalVal style root files ps (flipVal rc.2 (urlForRel style root files rc.1) v)

/-- The evolution of one displayed value along a list of passes. -/
def runPasses (style : UrlStyle) (root : List Char) (files : List (List Char × List Char)) :
    List (List Char × List Char) → List Char → List Char
  | [], x => x
  | rc :: ps, x =>
      runPasses style root files ps (if x == rc.2 then urlForRel style root files rc.1 else x)

/-! ### Lemmas about the string primitives -/

/-- Induction principle for `FSEntries` that also descends into subdirectories. -/
theorem FSEntries.inductOn (P : FSEntries → Prop) (hnil : P FSEntries.nil)
    (hfile : ∀ n b rest, P rest → P (FSEntries.cons n (FSTree.file b) rest))
    (hdir : ∀ n es rest, P es → P rest → P (FSEntries.cons n (FSTree.dir es) rest)) :
    ∀ es, P es
  | FSEntries.nil => hnil
  | FSEntries.cons n (FSTree.file b) rest =>
      hfile n b rest (FSEntries.inductOn P hnil hfile hdir rest)
  | FSEntries.cons n (FSTree.dir es) rest =>
      hdir n es rest (FSEntries.inductOn P hnil hfile hdir es)
        (FSEntries.inductOn P hnil hfile hdir rest)

theorem stripStart_append : ∀ (p r : List Char), stripStart p (p ++ r) = some r
  | [], _ => rfl
  | c :: cs, r => by
      simp only [List.cons_append, stripStart, if_pos]
      exact stripStart_append cs r

theorem stripStart_eq_some : ∀ (p s r : List Char), stripStart p s = some r → s = p ++ r
  | [], s, r => by
      intro h
      simp only [stripStart, Option.some.injEq] at h
      simp [h]
  | p :: ps, [], r => by
      intro h
      simp [stripStart] at h
  | p :: ps, c :: cs, r => by
      intro h
      simp only [stripStart] at h
      by_cases hpc : p = c
      · rw [if_pos hpc] at h
        have := stripStart_eq_some ps cs r h
        simp [← hpc, this]
      · rw [if_neg hpc] at h
        exact absurd h (by simp)

theorem containsSubstr_of_append :
    ∀ (pat a b : List Char), containsSubstr pat (a ++ (pat ++ b)) = true
  | pat, [], b => by
      cases pat with
      | nil =>
          cases b with
          | nil => rfl
          | cons c r => simp [containsSubstr, stripStart]
      | cons p ps =>
          simp [containsSubstr,
            show stripStart (p :: ps) (p :: (ps ++ b)) = some b by
              simpa using stripStart_append (p :: ps) b]
  | pat, c :: a, b => by
      simp [containsSubstr, containsSubstr_of_append pat a b]

theorem containsSubstr_decomp :
    ∀ (pat s : List Char), containsSubstr pat s = true → ∃ a b, s = a ++ (pat ++ b)
  | pat, [] => by
      intro h
      simp only [containsSubstr, List.isEmpty_iff] at h
      exact ⟨[], [], by simp [h]⟩
  | pat, c :: rest => by
      intro h
      simp only [containsSubstr, Bool.or_eq_true, Option.isSome_iff_exists] at h
      rcases h with ⟨r, hr⟩ | h
      · exact ⟨[], r, by simpa using stripStart_eq_some _ _ _ hr⟩
      · obtain ⟨a, b, hab⟩ := containsSubstr_decomp pat rest h
        exact ⟨c :: a, b, by simp [hab]⟩

theorem replaceFirst_not_contains :
    ∀ (t r s : List Char), containsSubstr t s = false → replaceFirst t r s = s
  | _, _, [] => fun _ => rfl
  | t, r, c :: rest => by
      intro h
      simp only [containsSubstr, Bool.or_eq_false_iff] at h
      have hnone : stripStart t (c :: rest) = none := by
        cases hcase : stripStart t (c :: rest) with
        | none => rfl
        | some v => rw [hcase] at h; simp at h
      simp only [replaceFirst, hnone]
      exact congrArg (c :: ·) (replaceFirst_not_contains t r rest h.2)

theorem replaceFirst_decomp :
    ∀ (t r s : List Char), t ≠ [] → containsSubstr t s = true →
      ∃ a b, s = a ++ (t ++ b) ∧ replaceFirst t r s = a ++ (r ++ b)
  | t, r, [] => by
      intro ht h
      simp only [containsSubstr, List.isEmpty_iff] at h
      exact absurd h ht
  | t, r, c :: rest => by
      intro ht h
      simp only [containsSubstr, Bool.or_eq_true, Option.isSome_iff_exists] at h
      by_cases hs : ∃ r2, stripStart t (c :: rest) = some r2
      · obtain ⟨r2, hr2⟩ := hs
        refine ⟨[], r2, by simpa using stripStart_eq_some _ _ _ hr2, ?_⟩
        simp [replaceFirst, hr2]
      · have hnone : stripStart t (c :: rest) = none := by
          cases hcase : stripStart t (c :: rest) with
          | none => rfl
          | some v => exact absurd ⟨v, hcase⟩ hs
        have hrest : containsSubstr t rest = true := by
          rcases h with ⟨r2, hr2⟩ | h
          · exact absurd ⟨r2, hr2⟩ hs
          · exact h
        obtain ⟨a, b, hab, hrw⟩ := replaceFirst_decomp t r rest ht hrest
        refine ⟨c :: a, b, by simp [hab], ?_⟩
        simp [replaceFirst, hnone, hrw]

/-! ### C6: the index stamper -/

theorem metaTag_length (root : List Char) : (metaTag root).length = 40 + root.length := by
  have h1 : ("<meta ".data).length = 6 := rfl
  have h2 : (rootCidMarker).length = 20 := rfl
  have h3 : (" content=\"".data).length = 10 := rfl
  have h4 : ("\" />".data).length = 4 := rfl
  simp [metaTag, List.length_append, h1, h2, h3, h4]
  omega

/-- **C6** — Stamper behaviour and idempotence: `stampIndexWithRootCID` inserts the
`<meta name="ipfs-root-cid" content="<rootCid>" />` tag immediately before the first
`</head>` exactly when `index.html` exists, does not already contain
`name="ipfs-root-cid"`, and contains `</head>`; when `</head>` is absent the content
is unchanged; when the marker is already present the content is unchanged; a missing
`index.html` is left missing; and stamping is idempotent: a second run reproduces the
first run's content. -/
theorem c6_stamper (root html : List Char) :
    stampIndexWithRootCID root none = none
    ∧ (containsSubstr rootCidMarker html = true → stampContent root html = html)
    ∧ (containsSubstr "</head>".data html = false → stampContent root html = html)
    ∧ (containsSubstr rootCidMarker html = false → containsSubstr "</head>".data html = true →
        ∃ pre post, html = pre ++ ("</head>".data ++ post)
          ∧ stampContent root html = pre ++ (metaTag root ++ ("\n</head>".data ++ post))
          ∧ stampContent root html ≠ html)
    ∧ stampContent root (stampContent root html) = stampContent root html := by
  have hmarkTag : ∀ (a b : List Char),
      containsSubstr rootCidMarker (a ++ (metaTag root ++ b)) = true := by
    intro a b
    have := containsSubstr_of_append rootCidMarker (a ++ "<meta ".data)
      (" content=\"".data ++ root ++ "\" />".data ++ b)
    simpa [metaTag, List.append_assoc] using this
  refine ⟨rfl, ?_, ?_, ?_, ?_⟩
  · intro h
    simp [stampContent, h]
  · intro h
    by_cases hm : containsSubstr rootCidMarker html = true
    · simp [stampContent, hm]
    · simp only [Bool.not_eq_true] at hm
      simp [stampContent, hm, replaceFirst_not_contains _ _ _ h]
  · intro hm hh
    obtain ⟨a, b, hab, hrw⟩ :=
      replaceFirst_decomp "</head>".data (metaTag root ++ "\n</head>".data) html
        (by decide) hh
    refine ⟨a, b, hab, ?_, ?_⟩
    · simp [stampContent, hm, hrw, List.append_assoc]
    · intro heq
      have hout : stampContent root html = a ++ (metaTag root ++ ("\n</head>".data ++ b)) := by
        simp [stampContent, hm, hrw, List.append_assoc]
      rw [hout, hab] at heq
      have hlen := congrArg List.length heq
      simp only [List.length_append, metaTag_length] at hlen
      have h7 : ("</head>".data).length = 7 := rfl
      have h8 : ("\n</head>".data).length = 8 := rfl
      simp only [h7, h8] at hlen
      omega
  · by_cases hm : containsSubstr rootCidMarker html = true
    · simp [stampContent, hm]
    · simp only [Bool.not_eq_true] at hm
      by_cases hh : containsSubstr "</head>".data html = true
      · obtain ⟨a, b, hab, hrw⟩ :=
          replaceFirst_decomp "</head>".data (metaTag root ++ "\n</head>".data) html
            (by decide) hh
        have hout : stampContent root html = a ++ (metaTag root ++ ("\n</head>".data ++ b)) := by
          simp [stampContent, hm, hrw, List.append_assoc]
        rw [hout]
        simp [stampContent, hmarkTag]
      · simp only [Bool.not_eq_true] at hh
        have hid : stampContent root html = html := by
          simp [stampContent, hm, replaceFirst_not_contains _ _ _ hh]
        rw [hid, hid]

/-! ### C5: the rewriter fallback -/

/-- **C5 counterexample** — the claim asserts that under the `path` style, when no
replacement occurred and no `</head>` is present, the base tag is prepended to the
document. On `<header>hi</header>` (which contains the substring `<head` but no
`</head>`) the code takes the `includes('<head')` branch, the `</head>` replacement
is a no-op, and the sibling is written byte-equal to the original — no base tag is
prepended, contradicting the claim. -/
theorem c5_counterexample :
    writeIpfsAddressedHtmlFile UrlStyle.path "R".data [] "<header>hi</header>".data
      = "<header>hi</header>".data
    ∧ containsSubstr "</head>".data "<header>hi</header>".data = false
    ∧ "<header>hi</header>".data
      ≠ baseTag UrlStyle.path "R".data ++ '\n' :: "<header>hi</header>".data :=
  ⟨by decide, by decide, by decide⟩

/-- **C5 (amended)** — Rewriter fallback, as the code behaves: for
every HTML file in which no replacement occurred, under the `scheme-file` style the
`.ipfs.html` sibling is byte-equal to the original text; under the `path`/`scheme`
styles the base tag is injected immediately before the first `</head>` when the text
contains the substring `<head`, the base tag is prepended when the text does not
contain `<head`, and the sibling is byte-equal to the original when the text contains
`<head` but no `</head>`. -/
theorem c5_amended (style : UrlStyle) (root : List Char) (files : List (List Char × List Char))
    (html : List Char) (hno : rewriteHtml style root files html = html) :
    (style = UrlStyle.schemeFile → writeIpfsAddressedHtmlFile style root files html = html)
    ∧ (style ≠ UrlStyle.schemeFile → containsSubstr "<head".data html = false →
        writeIpfsAddressedHtmlFile style root files html = baseTag style root ++ '\n' :: html)
    ∧ (style ≠ UrlStyle.schemeFile → containsSubstr "<head".data html = true →
        containsSubstr "</head>".data html = true →
        ∃ pre post, html = pre ++ ("</head>".data ++ post)
          ∧ writeIpfsAddressedHtmlFile style root files html =
              pre ++ (baseTag style root ++ ("\n</head>".data ++ post)))
    ∧ (style ≠ UrlStyle.schemeFile → containsSubstr "<head".data html = true →
        containsSubstr "</head>".data html = false →
        writeIpfsAddressedHtmlFile style root files html = html) := by
  cases style with
  | schemeFile =>
      refine ⟨fun _ => ?_, fun h => absurd rfl h, fun h => absurd rfl h, fun h => absurd rfl h⟩
      simp [writeIpfsAddressedHtmlFile, hno]
  | path =>
      refine ⟨fun h => UrlStyle.noConfusion h, fun _ hhead => ?_, fun _ hhead hclose => ?_,
        fun _ hhead hclose => ?_⟩
      · simp [writeIpfsAddressedHtmlFile, hno, hhead]
      · obtain ⟨a, b, hab, hrw⟩ :=
          replaceFirst_decomp "</head>".data (baseTag UrlStyle.path root ++ "\n</head>".data)
            html (by decide) hclose
        exact ⟨a, b, hab, by simp [writeIpfsAddressedHtmlFile, hno, hhead, hrw,
          List.append_assoc]⟩
      · simp [writeIpfsAddressedHtmlFile, hno, hhead, replaceFirst_not_contains _ _ _ hclose]
  | scheme =>
      refine ⟨fun h => UrlStyle.noConfusion h, fun _ hhead => ?_, fun _ hhead hclose => ?_,
        fun _ hhead hclose => ?_⟩
      · simp [writeIpfsAddressedHtmlFile, hno, hhead]
      · obtain ⟨a, b, hab, hrw⟩ :=
          replaceFirst_decomp "</head>".data (baseTag UrlStyle.scheme root ++ "\n</head>".data)
            html (by decide) hclose
        exact ⟨a, b, hab, by simp [writeIpfsAddressedHtmlFile, hno, hhead, hrw,
          List.append_assoc]⟩
      · simp [writeIpfsAddressedHtmlFile, hno, hhead, replaceFirst_not_contains _ _ _ hclose]

/-- Witness for C5 (amended): a concrete no-replacement run under the `path` style
with `</head>` present gets the base tag injected before it. -/
theorem c5_amended_witness :
    rewriteHtml UrlStyle.path "R".data [] "<head></head>".data = "<head></head>".data
    ∧ ∃ pre post, "<head></head>".data = pre ++ ("</head>".data ++ post)
        ∧ writeIpfsAddressedHtmlFile UrlStyle.path "R".data [] "<head></head>".data =
            pre ++ (baseTag UrlStyle.path "R".data ++ ("\n</head>".data ++ post)) :=
  ⟨by decide,
    (c5_amended UrlStyle.path "R".data [] "<head></head>".data (by decide)).2.2.1
      (by decide) (by decide) (by decide)⟩

/-! ### C7: the rewriter writes only `.ipfs.html` siblings -/

theorem outPathFor_suffix (p : List Char) :
    ".ipfs.html".data.isSuffixOf (outPathFor p) = true := by
  rw [List.isSuffixOf_iff_suffix]
  unfold outPathFor
  split
  · exact List.suffix_append _ _
  · exact List.suffix_append _ _

theorem outPathFor_ne (p : List Char) : outPathFor p ≠ p := by
  unfold outPathFor
  split
  case isTrue h =>
    rw [List.isSuffixOf_iff_suffix] at h
    have h5 : (".html".data).length = 5 := rfl
    have hge : 5 ≤ p.length := h5 ▸ h.length_le
    intro heq
    have hlen := congrArg List.length heq
    have h10 : (".ipfs.html".data).length = 10 := rfl
    simp only [List.length_append, List.length_take, h10] at hlen
    omega
  case isFalse =>
    intro heq
    have hlen := congrArg List.length heq
    have h10 : (".ipfs.html".data).length = 10 := rfl
    simp only [List.length_append, h10] at hlen
    omega

/-- **C7** — Rewriter frame invariant: on any directory, every path the rewriter
writes ends in `.ipfs.html`; consequently no path that does not end in `.ipfs.html`
(in particular no original `index.html` or other plain `*.html` output path) is ever
written, and the sibling path written for each processed HTML file is never the
processed file's own path. -/
theorem c7_rewriter_frame (es : FSEntries) :
    (∀ q ∈ rewriterWrites es, ".ipfs.html".data.isSuffixOf q = true)
    ∧ (∀ p, ".ipfs.html".data.isSuffixOf p = false → p ∉ rewriterWrites es)
    ∧ (∀ p ∈ collectHtmlAux [] es, outPathFor p ≠ p) := by
  have h1 : ∀ q ∈ rewriterWrites es, ".ipfs.html".data.isSuffixOf q = true := by
    intro q hq
    rw [rewriterWrites, List.mem_map] at hq
    obtain ⟨p, _, rfl⟩ := hq
    exact outPathFor_suffix p
  refine ⟨h1, ?_, fun p _ => outPathFor_ne p⟩
  intro p hp hmem
  rw [h1 p hmem] at hp
  cases hp

/-- Witness for C7: a directory holding `index.html` — the rewriter writes
`index.ipfs.html`, which ends in `.ipfs.html`. -/
theorem c7_rewriter_frame_witness :
    "index.ipfs.html".data ∈ rewriterWrites
        (FSEntries.cons "index.html".data (FSTree.file []) FSEntries.nil)
    ∧ ".ipfs.html".data.isSuffixOf "index.ipfs.html".data = true :=
  ⟨by decide,
    (c7_rewriter_frame (FSEntries.cons "index.html".data (FSTree.file []) FSEntries.nil)).1
      _ (by decide)⟩

/-- Witness for C6 at a concrete `index.html`: the marker is absent, `</head>` is
present, and the stamper inserts the meta tag before it. -/
theorem c6_stamper_witness :
    containsSubstr rootCidMarker "<head></head>".data = false
    ∧ containsSubstr "</head>".data "<head></head>".data = true
    ∧ ∃ pre post, "<head></head>".data = pre ++ ("</head>".data ++ post)
        ∧ stampContent "r".data "<head></head>".data =
            pre ++ (metaTag "r".data ++ ("\n</head>".data ++ post))
        ∧ stampContent "r".data "<head></head>".data ≠ "<head></head>".data :=
  ⟨by decide, by decide,
    (c6_stamper "r".data "<head></head>".data).2.2.2.1 (by decide) (by decide)⟩

/-! ### C4: the HTML rewrite algorithm -/

theorem replaceBindingsFuel_noMatch (url cand : List Char) :
    ∀ (fuel : Nat) (s : List Char), noMatch cand s = true →
      replaceBindingsFuel url cand fuel s = s
  | 0, s => fun _ => rfl
  | _+1, [] => fun _ => rfl
  | fuel+1, c :: rest => by
      intro h
      simp only [noMatch, Bool.and_eq_true, Option.isNone_iff_eq_none] at h
      simp only [replaceBindingsFuel, h.1]
      exact congrArg (c :: ·) (replaceBindingsFuel_noMatch url cand fuel rest h.2)

theorem replaceBindings_noMatch (cand url s : List Char) (h : noMatch cand s = true) :
    replaceBindings cand url s = s :=
  replaceBindingsFuel_noMatch url cand s.length s h

theorem replaceBindingsFuel_cons_none (url cand : List Char) (fuel : Nat) (c : Char)
    (rest : List Char) (h : matchBinding cand (c :: rest) = none) :
    replaceBindingsFuel url cand (fuel+1) (c :: rest) =
      c :: replaceBindingsFuel url cand fuel rest := by
  rw [show replaceBindingsFuel url cand (fuel+1) (c :: rest) =
      (match matchBinding cand (c :: rest) with
      | some x => x.1 ++ '=' :: x.2.1 :: (url ++ x.2.1 :: replaceBindingsFuel url cand fuel x.2.2)
      | none => c :: replaceBindingsFuel url cand fuel rest) from rfl, h]

theorem replaceBindingsFuel_cons_some (url cand : List Char) (fuel : Nat) (c : Char)
    (rest a r : List Char) (q : Char) (h : matchBinding cand (c :: rest) = some (a, q, r)) :
    replaceBindingsFuel url cand (fuel+1) (c :: rest) =
      a ++ '=' :: q :: (url ++ q :: replaceBindingsFuel url cand fuel r) := by
  rw [show replaceBindingsFuel url cand (fuel+1) (c :: rest) =
      (match matchBinding cand (c :: rest) with
      | some x => x.1 ++ '=' :: x.2.1 :: (url ++ x.2.1 :: replaceBindingsFuel url cand fuel x.2.2)
      | none => c :: replaceBindingsFuel url cand fuel rest) from rfl, h]

theorem replaceBindingsFuel_clean (url cand : List Char) :
    ∀ (pre tail : List Char) (fuel : Nat), cleanBefore cand pre tail = true →
      replaceBindingsFuel url cand (pre.length + fuel) (pre ++ tail) =
        pre ++ replaceBindingsFuel url cand fuel tail
  | [], tail, fuel => fun _ => by simp
  | c :: p, tail, fuel => by
      intro h
      simp only [cleanBefore, Bool.and_eq_true, Option.isNone_iff_eq_none] at h
      have hsucc : (c :: p).length + fuel = (p.length + fuel) + 1 := by
        simp [List.length_cons]
        omega
      rw [hsucc, List.cons_append, replaceBindingsFuel_cons_none url cand _ c (p ++ tail) h.1]
      exact congrArg (c :: ·) (replaceBindingsFuel_clean url cand p tail fuel h.2)

theorem matchAfterAttr_hit (cand post : List Char) (q : Char) (hq : isQuote q = true) :
    matchAfterAttr cand (q :: (cand ++ q :: post)) = some (q, post) := by
  simp [matchAfterAttr, hq, stripStart_append]

/-- The regex matches at the head of an exact `src=` binding occurrence. -/
theorem matchBinding_hit_src (cand post : List Char) (q : Char) (hq : isQuote q = true) :
    matchBinding cand ("src".data ++ '=' :: q :: (cand ++ q :: post)) =
      some ("src".data, q, post) := by
  have h1 : stripStart ['s', 'r', 'c', '=']
      ('s' :: 'r' :: 'c' :: '=' :: q :: (cand ++ q :: post)) =
      some (q :: (cand ++ q :: post)) :=
    stripStart_append "src=".data (q :: (cand ++ q :: post))
  simp [matchBinding, h1, matchAfterAttr_hit cand post q hq]

/-- The regex matches at the head of an exact `href=` binding occurrence. -/
theorem matchBinding_hit_href (cand post : List Char) (q : Char) (hq : isQuote q = true) :
    matchBinding cand ("href".data ++ '=' :: q :: (cand ++ q :: post)) =
      some ("href".data, q, post) := by
  have h0 : stripStart ['s', 'r', 'c', '=']
      ('h' :: 'r' :: 'e' :: 'f' :: '=' :: q :: (cand ++ q :: post)) = none := rfl
  have h1 : stripStart ['h', 'r', 'e', 'f', '=']
      ('h' :: 'r' :: 'e' :: 'f' :: '=' :: q :: (cand ++ q :: post)) =
      some (q :: (cand ++ q :: post)) :=
    stripStart_append "href=".data (q :: (cand ++ q :: post))
  simp [matchBinding, h0, h1, matchAfterAttr_hit cand post q hq]

/-- Complete characterization of one global replace pass: on a text that decomposes
into inert segments and binding occurrences of `cand` — with no stray match anywhere
else — every occurrence is replaced by `url` with its quote preserved and the inert
segments are unchanged. Any number of occurrences, any mix of attributes and quotes. -/
theorem replaceBindingsFuel_segs (url cand : List Char) :
    ∀ (segs : List (List Char × List Char × Char)) (tail : List Char) (fuel : Nat),
      wfSegs cand segs tail = true → (withBindings cand segs tail).length ≤ fuel →
      replaceBindingsFuel url cand fuel (withBindings cand segs tail) = withUrls url segs tail
  | [], tail, fuel => fun hwf _ => replaceBindingsFuel_noMatch url cand fuel tail hwf
  | (u, a, q) :: rest, tail, fuel => by
      intro hwf hfuel
      simp only [wfSegs, Bool.and_eq_true, Bool.or_eq_true, beq_iff_eq] at hwf
      obtain ⟨⟨⟨ha, hq⟩, hclean⟩, hrest⟩ := hwf
      simp only [withBindings] at hfuel ⊢
      have hle : u.length ≤ fuel := by
        rw [List.length_append] at hfuel
        omega
      rw [show fuel = u.length + (fuel - u.length) from (Nat.add_sub_cancel' hle).symm,
        replaceBindingsFuel_clean url cand u _ (fuel - u.length) hclean]
      simp only [withUrls]
      congr 1
      rcases ha with rfl | rfl
      · have hXlen :
            ("src".data ++ '=' :: q :: (cand ++ q :: withBindings cand rest tail)).length
              = cand.length + (withBindings cand rest tail).length + 6 := by
          simp [List.length_append]
          omega
        have hge : cand.length + (withBindings cand rest tail).length + 6 ≤
            fuel - u.length := by
          rw [List.length_append, hXlen] at hfuel
          omega
        have hcons : "src".data ++ '=' :: q :: (cand ++ q :: withBindings cand rest tail) =
            's' :: ('r' :: 'c' :: '=' :: q :: (cand ++ q :: withBindings cand rest tail)) := rfl
        have hm : matchBinding cand
            ('s' :: ('r' :: 'c' :: '=' :: q :: (cand ++ q :: withBindings cand rest tail))) =
            some ("src".data, q, withBindings cand rest tail) :=
          matchBinding_hit_src cand (withBindings cand rest tail) q hq
        rw [show fuel - u.length = (fuel - u.length - 1) + 1 by omega, hcons,
          replaceBindingsFuel_cons_some url cand (fuel - u.length - 1) _ _ _ _ q hm,
          replaceBindingsFuel_segs url cand rest tail (fuel - u.length - 1) hrest (by omega)]
      · have hXlen :
            ("href".data ++ '=' :: q :: (cand ++ q :: withBindings cand rest tail)).length
              = cand.length + (withBindings cand rest tail).length + 7 := by
          simp [List.length_append]
          omega
        have hge : cand.length + (withBindings cand rest tail).length + 7 ≤
            fuel - u.length := by
          rw [List.length_append, hXlen] at hfuel
          omega
        have hcons : "href".data ++ '=' :: q :: (cand ++ q :: withBindings cand rest tail) =
            'h' :: ('r' :: 'e' :: 'f' :: '=' :: q ::
              (cand ++ q :: withBindings cand rest tail)) := rfl
        have hm : matchBinding cand
            ('h' :: ('r' :: 'e' :: 'f' :: '=' :: q ::
              (cand ++ q :: withBindings cand rest tail))) =
            some ("href".data, q, withBindings cand rest tail) :=
          matchBinding_hit_href cand (withBindings cand rest tail) q hq
        rw [show fuel - u.length = (fuel - u.length - 1) + 1 by omega, hcons,
          replaceBindingsFuel_cons_some url cand (fuel - u.length - 1) _ _ _ _ q hm,
          replaceBindingsFuel_segs url cand rest tail (fuel - u.length - 1) hrest (by omega)]

theorem replaceBindings_segs (url cand : List Char) (segs : List (List Char × List Char × Char))
    (tail : List Char) (hwf : wfSegs cand segs tail = true) :
    replaceBindings cand url (withBindings cand segs tail) = withUrls url segs tail :=
  replaceBindingsFuel_segs url cand segs tail _ hwf (Nat.le_refl _)

/-- The regrouped decomposition renders back to the current document. -/
theorem segsFor_render (c : List Char) (v : Bind → List Char) :
    ∀ (binds : List Bind) (tail : List Char),
      withBindings c (segsFor c v binds tail).1 (segsFor c v binds tail).2 =
        renderDoc v binds tail
  | [], tail => rfl
  | b :: bs, tail => by
      have ih := segsFor_render c v bs tail
      simp only [segsFor, renderDoc]
      by_cases hb : (v b == c) = true
      · rw [if_pos hb]
        simp only [withBindings]
        rw [ih, beq_iff_eq.mp hb]
      · rw [if_neg hb]
        rcases hr : segsFor c v bs tail with ⟨segs1, t2⟩
        rw [hr] at ih
        cases segs1 with
        | nil =>
            simp only [withBindings] at ih ⊢
            rw [← ih]
        | cons s1 rest =>
            rcases s1 with ⟨u2, a2, q2⟩
            simp only [withBindings] at ih ⊢
            rw [← ih]
            simp [List.append_assoc]

/-- Replacing the regrouped decomposition's designated values renders the document in
which exactly the bindings that displayed `c` now display `url`. -/
theorem segsFor_urls (c url : List Char) (v : Bind → List Char) :
    ∀ (binds : List Bind) (tail : List Char),
      withUrls url (segsFor c v binds tail).1 (segsFor c v binds tail).2 =
        renderDoc (flipVal c url v) binds tail
  | [], tail => rfl
  | b :: bs, tail => by
      have ih := segsFor_urls c url v bs tail
      simp only [segsFor, renderDoc]
      by_cases hb : (v b == c) = true
      · rw [if_pos hb]
        simp only [withUrls]
        rw [ih]
        simp only [flipVal, hb, if_pos]
      · rw [if_neg hb]
        rcases hr : segsFor c v bs tail with ⟨segs1, t2⟩
        rw [hr] at ih
        have hflip : flipVal c url v b = v b := by
          simp only [flipVal, hb, Bool.false_eq_true, if_false]
        cases segs1 with
        | nil =>
            simp only [withUrls] at ih ⊢
            rw [← ih, hflip]
        | cons s1 rest =>
            rcases s1 with ⟨u2, a2, q2⟩
            simp only [withUrls] at ih ⊢
            rw [← ih, hflip]
            simp [List.append_assoc]

theorem ne_dotslash_self (rel : List Char) : rel ≠ "./".data ++ rel := by
  intro h
  have hlen := congrArg List.length h
  simp [List.length_append] at hlen
  omega

theorem ne_slash_self (rel : List Char) : rel ≠ "/".data ++ rel := by
  intro h
  have hlen := congrArg List.length h
  simp [List.length_append] at hlen

theorem dotslash_ne_slash (rel : List Char) : "./".data ++ rel ≠ "/".data ++ rel := by
  intro h
  have h' : ('.' : Char) :: '/' :: rel = '/' :: rel := h
  injection h' with h1 _
  exact absurd h1 (by decide)

/-- **C4 counterexample** — the claim asserts that for every key of `manifest.files`
only the matched quoted values change and **no other text is changed**. But the
replacement passes run sequentially over the progressively rewritten text, so with
the manifest `{ "a": "X", "ipfs://X": "Y" }` the binding `src='a'` is first rewritten
to `src='ipfs://X'` and then the second key's pass rewrites that replacement again to
`src='ipfs://Y'` — not the claimed `src='ipfs://X'`. -/
theorem c4_counterexample :
    rewriteHtml UrlStyle.schemeFile "R".data [("a".data, "X".data), ("ipfs://X".data, "Y".data)]
        "src=\"a\"".data = "src=\"ipfs://Y\"".data
    ∧ "src=\"ipfs://Y\"".data ≠ "src=\"ipfs://X\"".data :=
  ⟨by decide, by decide⟩

theorem runPasses_append (style : UrlStyle) (root : List Char)
    (files : List (List Char × List Char)) :
    ∀ (ps₁ ps₂ : List (List Char × List Char)) (x : List Char),
      runPasses style root files (ps₁ ++ ps₂) x =
        runPasses style root files ps₂ (runPasses style root files ps₁ x)
  | [], ps₂, x => rfl
  | rc :: ps, ps₂, x => by
      simp only [List.cons_append, runPasses]
      exact runPasses_append style root files ps ps₂ _

theorem runPasses_stable (style : UrlStyle) (root : List Char)
    (files : List (List Char × List Char)) :
    ∀ (ps : List (List Char × List Char)) (x : List Char),
      (∀ rc ∈ ps, x ≠ rc.2) → runPasses style root files ps x = x
  | [], x => fun _ => rfl
  | rc :: ps, x => by
      intro h
      have hx : (x == rc.2) = false := by
        simpa using h rc (List.mem_cons_self rc ps)
      simp only [runPasses, hx, Bool.false_eq_true, if_false]
      exact runPasses_stable style root files ps x (fun rc2 h2 => h rc2 (List.mem_cons_of_mem rc h2))

theorem finalVal_apply (style : UrlStyle) (root : List Char)
    (files : List (List Char × List Char)) :
    ∀ (ps : List (List Char × List Char)) (v : Bind → List Char) (b : Bind),
      finalVal style root files ps v b = runPasses style root files ps (v b)
  | [], _, _ => rfl
  | rc :: ps, v, b => by
      simp only [finalVal, runPasses]
      rw [finalVal_apply style root files ps _ b]
      rfl

/-- The nested rewrite loop is the sequence of global-replace passes, one per
(key, candidate) pair in processing order. -/
theorem rewriteFold_general (style : UrlStyle) (root : List Char)
    (files : List (List Char × List Char)) :
    ∀ (fs : List (List Char × List Char)) (acc : List Char),
      fs.foldl
        (fun acc f => (candidatesFor f.1).foldl
          (fun acc2 cand => replaceBindings cand (urlForRel style root files f.1) acc2) acc)
        acc
        = applyPasses style root files (allPasses fs) acc
  | [], _ => rfl
  | f :: fs, acc => by
      simp only [List.foldl_cons, allPasses, List.flatMap_cons, applyPasses,
        List.foldl_append, List.foldl_map]
      exact rewriteFold_general style root files fs _

theorem rewriteHtml_eq_applyPasses (style : UrlStyle) (root : List Char)
    (files : List (List Char × List Char)) (html : List Char) :
    rewriteHtml style root files html = applyPasses style root files (allPasses files) html :=
  rewriteFold_general style root files files html

/-- Composing the passes: when every pass's matches are exactly the bindings
currently displaying its candidate, the whole rewrite sends the rendered document to
the document rendered with the final displayed values — inert text, attribute names
and quote characters untouched. -/
theorem applyPasses_renderDoc (style : UrlStyle) (root : List Char)
    (files : List (List Char × List Char)) (binds : List Bind) (tail : List Char) :
    ∀ (ps : List (List Char × List Char)) (v : Bind → List Char),
      passesOk style root files ps v binds tail = true →
      applyPasses style root files ps (renderDoc v binds tail)
        = renderDoc (finalVal style root files ps v) binds tail
  | [], _ => fun _ => rfl
  | rc :: ps, v => by
      intro h
      simp only [passesOk, Bool.and_eq_true] at h
      have hstep : replaceBindings rc.2 (urlForRel style root files rc.1)
          (renderDoc v binds tail)
          = renderDoc (flipVal rc.2 (urlForRel style root files rc.1) v) binds tail := by
        rw [← segsFor_render rc.2 v binds tail,
          replaceBindings_segs (urlForRel style root files rc.1) rc.2 _ _ h.1,
          segsFor_urls]
      have hfold : applyPasses style root files (rc :: ps) (renderDoc v binds tail)
          = applyPasses style root files ps
            (replaceBindings rc.2 (urlForRel style root files rc.1)
              (renderDoc v binds tail)) := rfl
      rw [hfold, hstep]
      exact applyPasses_renderDoc style root files binds tail ps _ h.2

/-- Every pass of the pass list targets a key of its list with one of that key's
candidate shapes. -/
theorem allPasses_mem (ks : List (List Char × List Char)) (rc : List Char × List Char)
    (h : rc ∈ allPasses ks) : rc.1 ∈ ks.map Prod.fst ∧ rc.2 ∈ candidatesFor rc.1 := by
  unfold allPasses at h
  rw [List.mem_flatMap] at h
  obtain ⟨f, hf, hrc⟩ := h
  rw [List.mem_map] at hrc
  obtain ⟨c, hc, rfl⟩ := hrc
  refine ⟨?_, hc⟩
  simpa using List.mem_map_of_mem Prod.fst hf

/-- Evolution of one binding's displayed value over all passes: with no cross-key
candidate aliasing and no replacement URL being itself a candidate, the value flips
exactly once — at its own key's pass for its own shape — landing at its key's URL. -/
theorem runPasses_keys (style : UrlStyle) (root bcand brel : List Char)
    (files : List (List Char × List Char)) :
    ∀ (ks : List (List Char × List Char)),
      brel ∈ ks.map Prod.fst →
      bcand ∈ candidatesFor brel →
      (∀ rel2 ∈ ks.map Prod.fst, rel2 ≠ brel → bcand ∉ candidatesFor rel2) →
      (∀ rel2 ∈ ks.map Prod.fst, urlForRel style root files brel ∉ candidatesFor rel2) →
      runPasses style root files (allPasses ks) bcand = urlForRel style root files brel
  | [] => by
      intro hmem
      simp at hmem
  | (rel1, cid1) :: ks => by
      intro hmem hcand hcross hurl
      have hsplit : allPasses ((rel1, cid1) :: ks) =
          (candidatesFor rel1).map (fun c => (rel1, c)) ++ allPasses ks := by
        simp [allPasses]
      rw [hsplit, runPasses_append]
      by_cases hr : rel1 = brel
      · subst hr
        have hu : urlForRel style root files rel1 ∉ candidatesFor rel1 :=
          hurl rel1 (by simp)
        have htriple : runPasses style root files
            ((candidatesFor rel1).map (fun c => (rel1, c))) bcand =
            urlForRel style root files rel1 := by
          have hne1 : (urlForRel style root files rel1 == "./".data ++ rel1) = false := by
            simp only [beq_eq_false_iff_ne]
            intro he
            exact hu (by rw [he]; simp [candidatesFor])
          have hne2 : (urlForRel style root files rel1 == "/".data ++ rel1) = false := by
            simp only [beq_eq_false_iff_ne]
            intro he
            exact hu (by rw [he]; simp [candidatesFor])
          have hne3 : (urlForRel style root files rel1 == rel1) = false := by
            simp only [beq_eq_false_iff_ne]
            intro he
            exact hu (by rw [he]; simp [candidatesFor])
          simp only [candidatesFor, List.mem_cons, List.mem_singleton,
            List.not_mem_nil, or_false] at hcand
          rcases hcand with rfl | rfl | rfl
          · simp only [candidatesFor, List.map_cons, List.map_nil, runPasses,
              beq_self_eq_true, if_true, if_pos, hne1, hne2, Bool.false_eq_true, if_false]
          · have h1 : ("./".data ++ rel1 == rel1) = false := by
              simp only [beq_eq_false_iff_ne]
              exact Ne.symm (ne_dotslash_self rel1)
            simp only [candidatesFor, List.map_cons, List.map_nil, runPasses, h1,
              Bool.false_eq_true, if_false, beq_self_eq_true, if_true, if_pos, hne2]
          · have h1 : ("/".data ++ rel1 == rel1) = false := by
              simp only [beq_eq_false_iff_ne]
              exact Ne.symm (ne_slash_self rel1)
            have h2 : ("/".data ++ rel1 == "./".data ++ rel1) = false := by
              simp only [beq_eq_false_iff_ne]
              exact Ne.symm (dotslash_ne_slash rel1)
            simp only [candidatesFor, List.map_cons, List.map_nil, runPasses, h1, h2,
              Bool.false_eq_true, if_false, beq_self_eq_true, if_true, if_pos]
        rw [htriple]
        apply runPasses_stable
        intro rc hrc
        obtain ⟨hk, hc⟩ := allPasses_mem ks rc hrc
        intro he
        exact hurl rc.1 (by simp [hk]) (he ▸ hc)
      · have hstay : runPasses style root files
            ((candidatesFor rel1).map (fun c => (rel1, c))) bcand = bcand := by
          apply runPasses_stable
          intro rc hrc
          rw [List.mem_map] at hrc
          obtain ⟨c, hc, rfl⟩ := hrc
          intro he
          exact hcross rel1 (by simp) (fun h2 => hr h2) (he ▸ hc)
        rw [hstay]
        have hmem2 : brel ∈ ks.map Prod.fst := by
          simp only [List.map_cons, List.mem_cons] at hmem
          rcases hmem with h1 | h1
          · exact absurd h1.symm hr
          · exact h1
        exact runPasses_keys style root bcand brel files ks hmem2 hcand
          (fun rel2 h2 => hcross rel2 (by simp [h2]))
          (fun rel2 h2 => hurl rel2 (by simp [h2]))

/-- **C4 (amended)** — HTML rewrite algorithm: for every manifest and every HTML
document decomposed into inert text and attribute bindings — each binding a
`src=`/`href=` occurrence whose quoted value is exactly `relPath`, `./relPath` or
`/relPath` for one of the manifest's keys — every binding's quoted value is replaced
by the style-determined URL of its key (under the default `scheme-file` style,
`ipfs://<fileCid>`), the original quote character is preserved, and no other text is
changed. Proviso forced by the counterexample: the passes run sequentially over the
progressively rewritten text, so this holds provided the passes do not interfere —
each pass's matches are exactly the bindings currently displaying its candidate
(`passesOk`), no binding's value is also a candidate shape of a different key, and no
key's replacement URL is itself a candidate shape of any key. -/
theorem c4_amended (style : UrlStyle) (root : List Char)
    (files : List (List Char × List Char)) (binds : List Bind) (tail : List Char)
    (hok : passesOk style root files (allPasses files) vInit binds tail = true)
    (hbinds : ∀ b ∈ binds, b.rel ∈ files.map Prod.fst ∧ b.cand ∈ candidatesFor b.rel)
    (hcross : ∀ b ∈ binds, ∀ rel2 ∈ files.map Prod.fst, rel2 ≠ b.rel →
        b.cand ∉ candidatesFor rel2)
    (hurl : ∀ b ∈ binds, ∀ rel2 ∈ files.map Prod.fst,
        urlForRel style root files b.rel ∉ candidatesFor rel2) :
    rewriteHtml style root files (renderDoc vInit binds tail)
      = renderDoc (finalVal style root files (allPasses files) vInit) binds tail
    ∧ (∀ b ∈ binds, finalVal style root files (allPasses files) vInit b
        = urlForRel style root files b.rel)
    ∧ resolveStyle [] none = UrlStyle.schemeFile
    ∧ (∀ rel cid, lookupAssoc files rel = some cid → cid ≠ [] →
        urlForRel UrlStyle.schemeFile root files rel = "ipfs://".data ++ cid) := by
  refine ⟨?_, ?_, rfl, ?_⟩
  · rw [rewriteHtml_eq_applyPasses]
    exact applyPasses_renderDoc style root files binds tail (allPasses files) vInit hok
  · intro b hb
    rw [finalVal_apply]
    exact runPasses_keys style root b.cand b.rel files files (hbinds b hb).1
      (hbinds b hb).2 (hcross b hb) (hurl b hb)
  · intro rel cid hl hc
    simp [urlForRel, hl, hc]

/-! ### Lemmas about the walker -/

theorem noSlash_firstSeg : ∀ (n : List Char), noSlash n = true → firstSeg n = n
  | [] => fun _ => rfl
  | c :: cs => by
      intro h
      simp only [noSlash, Bool.and_eq_true] at h
      have hc : ¬ c = '/' := by simpa using h.1
      simp [firstSeg, hc, noSlash_firstSeg cs h.2]

theorem firstSeg_append_slash : ∀ (n r : List Char), noSlash n = true →
    firstSeg (n ++ '/' :: r) = n
  | [], r => fun _ => by simp [firstSeg]
  | c :: cs, r => by
      intro h
      simp only [noSlash, Bool.and_eq_true] at h
      have hc : ¬ c = '/' := by simpa using h.1
      simp [firstSeg, hc, firstSeg_append_slash cs r h.2]

theorem validName_props (n : List Char) (h : validName n = true) :
    n ≠ [] ∧ noSlash n = true := by
  simp only [validName, Bool.and_eq_true] at h
  refine ⟨?_, h.2⟩
  have := h.1
  simp only [Bool.not_eq_true'] at this
  simpa [List.isEmpty_iff] using this

theorem joinRel_inj (pre s₁ s₂ : List Char) (h : joinRel pre s₁ = joinRel pre s₂) :
    s₁ = s₂ := by
  unfold joinRel at h
  by_cases hp : pre = []
  · simpa [hp] using h
  · rw [if_neg hp, if_neg hp] at h
    have h2 := List.append_cancel_left h
    injection h2

theorem joinRel_compose (pre n s : List Char) (hn : n ≠ []) :
    joinRel (joinRel pre n) s = joinRel pre (n ++ '/' :: s) := by
  unfold joinRel
  by_cases hp : pre = []
  · simp [hp, hn]
  · have hpn : pre ++ '/' :: n ≠ [] := by simp
    simp [hp, hpn, List.append_assoc]

theorem joinRel_ne_nil (pre s : List Char) (hs : s ≠ []) : joinRel pre s ≠ [] := by
  unfold joinRel
  by_cases hp : pre = []
  · simpa [hp]
  · simp [hp]

/-- Every file the full walk yields lies under one of the directory's entries: its
path extends the prefix by a nonempty suffix whose first segment is a listed name. -/
theorem allFiles_shape (es : FSEntries) : ∀ (pre p b : List Char), wfEntries es = true →
    (p, b) ∈ allFilesAux pre es →
    ∃ s, s ≠ [] ∧ p = joinRel pre s ∧ hasName (firstSeg s) es = true := by
  induction es using FSEntries.inductOn with
  | hnil =>
      intro pre p b _ hmem
      simp [allFilesAux] at hmem
  | hfile n bb rest ih =>
      intro pre p b hwf hmem
      simp only [wfEntries, Bool.and_eq_true] at hwf
      obtain ⟨⟨hv, _⟩, hw⟩ := hwf
      obtain ⟨hne, hns⟩ := validName_props n hv
      simp only [allFilesAux, List.mem_cons] at hmem
      rcases hmem with heq | hmem
      · have hp : p = joinRel pre n := congrArg Prod.fst heq
        exact ⟨n, hne, hp, by simp [hasName, noSlash_firstSeg n hns]⟩
      · obtain ⟨s, hs, hp, hn⟩ := ih pre p b hw hmem
        exact ⟨s, hs, hp, by simp [hasName, hn]⟩
  | hdir n es rest ihes ihrest =>
      intro pre p b hwf hmem
      simp only [wfEntries, Bool.and_eq_true] at hwf
      obtain ⟨⟨⟨hv, hwes⟩, _⟩, hw⟩ := hwf
      obtain ⟨hne, hns⟩ := validName_props n hv
      simp only [allFilesAux, List.mem_append] at hmem
      rcases hmem with hm | hm
      · obtain ⟨s', hs', hp, _⟩ := ihes (joinRel pre n) p b hwes hm
        refine ⟨n ++ '/' :: s', by simp, ?_, ?_⟩
        · rw [hp, joinRel_compose pre n s' hne]
        · rw [firstSeg_append_slash n s' hns]
          simp [hasName]
      · obtain ⟨s, hs, hp, hn⟩ := ihrest pre p b hw hm
        exact ⟨s, hs, hp, by simp [hasName, hn]⟩

/-- In a well-formed directory the full walk yields pairwise distinct paths. -/
theorem allFiles_nodup (es : FSEntries) : ∀ (pre : List Char), wfEntries es = true →
    ((allFilesAux pre es).map Prod.fst).Nodup := by
  induction es using FSEntries.inductOn with
  | hnil =>
      intro pre _
      simp [allFilesAux]
  | hfile n bb rest ih =>
      intro pre hwf
      simp only [wfEntries, Bool.and_eq_true] at hwf
      obtain ⟨⟨hv, hh⟩, hw⟩ := hwf
      obtain ⟨hne, hns⟩ := validName_props n hv
      simp only [allFilesAux, List.map_cons]
      rw [List.nodup_cons]
      refine ⟨?_, ih pre hw⟩
      intro hmem
      rw [List.mem_map] at hmem
      obtain ⟨e, he, hfe⟩ := hmem
      obtain ⟨s, hs, hp, hnm⟩ := allFiles_shape rest pre e.1 e.2 hw he
      have hsn : s = n := joinRel_inj pre s n (by rw [← hp, hfe])
      rw [hsn, noSlash_firstSeg n hns] at hnm
      rw [hnm] at hh
      simp at hh
  | hdir n es rest ihes ihrest =>
      intro pre hwf
      simp only [wfEntries, Bool.and_eq_true] at hwf
      obtain ⟨⟨⟨hv, hwes⟩, hh⟩, hw⟩ := hwf
      obtain ⟨hne, hns⟩ := validName_props n hv
      simp only [allFilesAux, List.map_append]
      rw [List.nodup_append]
      refine ⟨ihes (joinRel pre n) hwes, ihrest pre hw, ?_⟩
      intro a ha hb
      rw [List.mem_map] at ha hb
      obtain ⟨e1, he1, hfe1⟩ := ha
      obtain ⟨e2, he2, hfe2⟩ := hb
      obtain ⟨s1, hs1, hp1, _⟩ := allFiles_shape es (joinRel pre n) e1.1 e1.2 hwes he1
      obtain ⟨s2, hs2, hp2, hnm2⟩ := allFiles_shape rest pre e2.1 e2.2 hw he2
      have hcomp : e1.1 = joinRel pre (n ++ '/' :: s1) := by
        rw [hp1, joinRel_compose pre n s1 hne]
      have hs12 : s2 = n ++ '/' :: s1 :=
        joinRel_inj pre s2 (n ++ '/' :: s1) (by rw [← hp2, ← hcomp, hfe1, hfe2])
      rw [hs12, firstSeg_append_slash n s1 hns] at hnm2
      rw [hnm2] at hh
      simp at hh

/-- The walker is exactly the full walk filtered by the root-level exclusion set. -/
theorem walkAux_eq_filter (es : FSEntries) : ∀ (pre : List Char),
    walkAux pre es = (allFilesAux pre es).filter (fun e => !excludedAtRoot e.1) := by
  induction es using FSEntries.inductOn with
  | hnil => intro pre; rfl
  | hfile n b rest ih =>
      intro pre
      cases h : excludedAtRoot (joinRel pre n) with
      | true => simp [walkAux, allFilesAux, List.filter_cons, h, ih]
      | false => simp [walkAux, allFilesAux, List.filter_cons, h, ih]
  | hdir n es rest ihes ihrest =>
      intro pre
      simp [walkAux, allFilesAux, List.filter_append, ihes, ihrest]

theorem walk_paths_nodup (es : FSEntries) (h : wfEntries es = true) :
    ((walkAux [] es).map Prod.fst).Nodup := by
  rw [walkAux_eq_filter]
  exact List.Nodup.sublist ((List.filter_sublist _).map Prod.fst) (allFiles_nodup es [] h)

theorem walk_paths_ne_nil (es : FSEntries) (p b : List Char) (h : wfEntries es = true)
    (hm : (p, b) ∈ walkAux [] es) : p ≠ [] := by
  rw [walkAux_eq_filter] at hm
  obtain ⟨s, hs, hp, _⟩ := allFiles_shape es [] p b h (List.mem_filter.mp hm).1
  rw [hp]
  exact joinRel_ne_nil [] s hs

/-! ### Lemmas about the record fold, the block store and the packing pipeline -/

theorem recordAssign_fresh (m : List (List Char × List Char)) (k v : List Char)
    (h : m.any (fun e => e.1 == k) = false) : recordAssign m k v = m ++ [(k, v)] := by
  simp [recordAssign, h]

theorem foldl_records_general :
    ∀ (recs : List (List Char × List Char))
      (st : Option (List Char) × List (List Char × List Char)),
      (∀ r ∈ recs, r.1 ≠ []) →
      (∀ r ∈ recs, st.2.any (fun e => e.1 == r.1) = false) →
      (recs.map Prod.fst).Nodup →
      recs.foldl
        (fun st r => if r.1 = [] then (some r.2, st.2) else (st.1, recordAssign st.2 r.1 r.2)) st
        = (st.1, st.2 ++ recs)
  | [], _st => fun _ _ _ => by simp
  | r :: rs, st => by
      intro hne hfresh hnd
      have hr1 : r.1 ≠ [] := hne r (List.mem_cons_self r rs)
      have hnd2 : (r.1 ∉ rs.map Prod.fst) ∧ (rs.map Prod.fst).Nodup := by
        rw [List.map_cons, List.nodup_cons] at hnd
        exact hnd
      have hfresh2 : ∀ r2 ∈ rs, (st.2 ++ [r]).any (fun e => e.1 == r2.1) = false := by
        intro r2 h2
        rw [List.any_append]
        have ha : st.2.any (fun e => e.1 == r2.1) = false :=
          hfresh r2 (List.mem_cons_of_mem r h2)
        have hb : r.1 ≠ r2.1 := by
          intro heq
          exact hnd2.1 (heq ▸ List.mem_map_of_mem Prod.fst h2)
        simp [ha, hb]
      have hrec := foldl_records_general rs (st.1, st.2 ++ [r])
        (fun r2 h2 => hne r2 (List.mem_cons_of_mem r h2)) hfresh2 hnd2.2
      rw [List.foldl_cons, if_neg hr1,
        recordAssign_fresh st.2 r.1 r.2 (hfresh r (List.mem_cons_self r rs)), hrec]
      simp

theorem foldRecords_fst (files : List (List Char × List Char)) :
    (foldRecords (importerRecords files)).1 = some (cidOfTrie (trieOf files)) := by
  unfold foldRecords importerRecords
  rw [List.foldl_append]
  simp

theorem foldRecords_full (files : List (List Char × List Char))
    (hne : ∀ f ∈ files, f.1 ≠ []) (hnd : (files.map Prod.fst).Nodup) :
    foldRecords (importerRecords files) =
      (some (cidOfTrie (trieOf files)), files.map (fun f => (f.1, fileTopCid f.2))) := by
  unfold foldRecords importerRecords
  rw [List.foldl_append]
  have h1 := foldl_records_general (files.map (fun f => (f.1, fileTopCid f.2)))
    ((none : Option (List Char)), ([] : List (List Char × List Char)))
    (by
      intro r hr
      rw [List.mem_map] at hr
      obtain ⟨f, hf, rfl⟩ := hr
      exact hne f hf)
    (by intro r _; simp)
    (by rw [List.map_map]; exact hnd)
  rw [h1]
  simp

/-- `packDirectoryToCar` always succeeds, and its output is determined by the walked
file set: the wrapper record always supplies a root CID, so the
`Failed to compute root CID` branch is unreachable. -/
theorem packDirectoryToCar_ok (es : FSEntries) (cp mp : List Char) :
    packDirectoryToCar es cp mp = Except.ok {
      rootCid := cidOfTrie (trieOf (walkAux [] es))
      fileCids := (foldRecords (importerRecords (walkAux [] es))).2
      carPath := cp
      manifestPath := mp
      car := { roots := [cidOfTrie (trieOf (walkAux [] es))]
               blocks := importStore (walkAux [] es) }
      manifestBytes := manifestJson (cidOfTrie (trieOf (walkAux [] es)))
        (foldRecords (importerRecords (walkAux [] es))).2 } := by
  simp [packDirectoryToCar, foldRecords_fst]

/-- `computeDirectoryManifest` always succeeds, with the same derivation. -/
theorem computeDirectoryManifest_ok (es : FSEntries) (mp : List Char) :
    computeDirectoryManifest es mp = Except.ok {
      rootCid := cidOfTrie (trieOf (walkAux [] es))
      fileCids := (foldRecords (importerRecords (walkAux [] es))).2
      manifestPath := mp
      manifestBytes := manifestJson (cidOfTrie (trieOf (walkAux [] es)))
        (foldRecords (importerRecords (walkAux [] es))).2 } := by
  simp [computeDirectoryManifest, foldRecords_fst]

theorem storePut_nodup (st : List (List Char × List Char)) (k v : List Char)
    (h : (st.map Prod.fst).Nodup) : ((storePut st k v).map Prod.fst).Nodup := by
  unfold storePut
  split
  case isTrue hmem =>
    have hkeys : (st.map (fun e => if e.1 = k then (k, v) else e)).map Prod.fst =
        st.map Prod.fst := by
      rw [List.map_map]
      apply List.map_congr_left
      intro e _
      by_cases hek : e.1 = k
      · simp [hek]
      · simp [hek]
    rw [hkeys]
    exact h
  case isFalse hmem =>
    rw [List.map_append, List.nodup_append]
    refine ⟨h, by simp, ?_⟩
    intro a ha hb
    simp only [List.map_cons, List.map_nil, List.mem_singleton] at hb
    rw [List.mem_map] at ha
    obtain ⟨e, he, hfe⟩ := ha
    apply hmem
    rw [List.any_eq_true]
    exact ⟨e, he, by simp [hfe, hb]⟩

theorem foldl_storePut_nodup :
    ∀ (bs st : List (List Char × List Char)), (st.map Prod.fst).Nodup →
      ((bs.foldl (fun st b => storePut st b.1 b.2) st).map Prod.fst).Nodup
  | [], st => fun h => h
  | b :: bs, st => fun h =>
      foldl_storePut_nodup bs (storePut st b.1 b.2) (storePut_nodup st b.1 b.2 h)

theorem importStore_keys_nodup (files : List (List Char × List Char)) :
    ((importStore files).map Prod.fst).Nodup :=
  foldl_storePut_nodup (trieBlocks (trieOf files)) [] (by simp)

theorem nodup_filter_eq_single :
    ∀ (l : List (List Char × List Char)) (k v : List Char),
      (l.map Prod.fst).Nodup → (k, v) ∈ l → l.filter (fun b => b.1 == k) = [(k, v)]
  | [], k, v => by
      intro _ hmem
      simp at hmem
  | e :: rest, k, v => by
      intro hnd hmem
      rw [List.map_cons, List.nodup_cons] at hnd
      rcases List.mem_cons.mp hmem with heq | hmem2
      · subst heq
        rw [List.filter_cons]
        simp only [beq_self_eq_true, if_pos]
        have hrest : rest.filter (fun b => b.1 == k) = [] := by
          rw [List.filter_eq_nil_iff]
          intro b hb
          intro hbk
          apply hnd.1
          have hbk2 : b.1 = k := by simpa using hbk
          have hmem3 : b.1 ∈ rest.map Prod.fst := List.mem_map_of_mem Prod.fst hb
          exact hbk2 ▸ hmem3
        rw [hrest]
      · have hek : (e.1 == k) = false := by
          have hkmem : k ∈ rest.map Prod.fst :=
            (show ((k, v).1 ∈ rest.map Prod.fst) from List.mem_map_of_mem Prod.fst hmem2)
          rcases hbeq : (e.1 == k) with _ | _
          · rfl
          · exact absurd ((beq_iff_eq.mp hbeq) ▸ hkmem) hnd.1
        rw [List.filter_cons]
        simp only [hek]
        exact nodup_filter_eq_single rest k v hnd.2 hmem2

/-! ### C10: `computeDirectoryManifest` refines `packDirectoryToCar` -/

/-- **C10** — Implicit refinement: on every input directory both pipelines succeed and
compute the same root CID, the same `fileCids` map and byte-identical manifest JSON at
the manifest path; `packDirectoryToCar` additionally produces the CAR stream (the
walked block set under the root) — the only difference in their outputs. -/
theorem c10_refinement (es : FSEntries) (cp mp : List Char) :
    ∃ p c, packDirectoryToCar es cp mp = Except.ok p
      ∧ computeDirectoryManifest es mp = Except.ok c
      ∧ p.rootCid = c.rootCid ∧ p.fileCids = c.fileCids
      ∧ p.manifestBytes = c.manifestBytes ∧ p.manifestPath = c.manifestPath
      ∧ p.carPath = cp ∧ p.car.roots = [p.rootCid]
      ∧ p.car.blocks = importStore (walkAux [] es) :=
  ⟨_, _, packDirectoryToCar_ok es cp mp, computeDirectoryManifest_ok es mp,
    rfl, rfl, rfl, rfl, rfl, rfl, rfl⟩

/-! ### C8: behaviour on zero walker entries -/

/-- **C8 counterexample** — the claim asserts packing fails fatally when the walker
yields zero entries. But with directory wrapping the importer still emits the wrapper
record with the empty path, so on an empty directory `packDirectoryToCar` returns
successfully with the empty wrapper directory's CID and an empty `fileCids` map — no
import-failure is raised. -/
theorem c8_counterexample :
    walkAux [] FSEntries.nil = []
    ∧ ∃ o, packDirectoryToCar FSEntries.nil "bundle.car".data "ipfs-manifest.json".data =
        Except.ok o
      ∧ o.rootCid = cidOfTrie (Trie.dir TrieEntries.nil) ∧ o.fileCids = [] :=
  ⟨rfl, _, packDirectoryToCar_ok FSEntries.nil "bundle.car".data "ipfs-manifest.json".data,
    rfl, rfl⟩

/-- **C8 (amended)** — the packing operation never raises the import-failure: the
wrapper record always exists (even for zero walker entries), so `packDirectoryToCar`
succeeds on every directory; on zero entries it returns the CID of the empty wrapper
directory rather than failing. -/
theorem c8_amended (es : FSEntries) (cp mp : List Char) :
    ∃ o, packDirectoryToCar es cp mp = Except.ok o
      ∧ o.rootCid = cidOfTrie (trieOf (walkAux [] es)) :=
  ⟨_, packDirectoryToCar_ok es cp mp, rfl⟩

/-! ### C1: determinism of packing -/

/-- **C1** — Determinism of packing: the outputs of `packDirectoryToCar` are a
function of the walked file sequence alone, so two runs over directories with
identical file contents (in particular two runs over the same directory) produce
byte-identical manifest JSON and an identical CAR stream. -/
theorem c1_determinism (es₁ es₂ : FSEntries) (cp mp : List Char)
    (h : walkAux [] es₁ = walkAux [] es₂) :
    packDirectoryToCar es₁ cp mp = packDirectoryToCar es₂ cp mp
    ∧ ∀ o₁ o₂, packDirectoryToCar es₁ cp mp = Except.ok o₁ →
        packDirectoryToCar es₂ cp mp = Except.ok o₂ →
        o₁.manifestBytes = o₂.manifestBytes ∧ o₁.car.blocks = o₂.car.blocks
          ∧ o₁.car.roots = o₂.car.roots := by
  have heq : packDirectoryToCar es₁ cp mp = packDirectoryToCar es₂ cp mp := by
    unfold packDirectoryToCar
    rw [h]
  refine ⟨heq, ?_⟩
  intro o₁ o₂ h₁ h₂
  rw [heq, h₂] at h₁
  cases h₁
  exact ⟨rfl, rfl, rfl⟩

/-- Witness for C1: adding a root-level `bundle.car` (a prior run's excluded output)
leaves the walk — and with it every packing output — unchanged. -/
theorem c1_determinism_witness :
    walkAux [] (FSEntries.cons "a.txt".data (FSTree.file "hi".data) FSEntries.nil)
      = walkAux [] (FSEntries.cons "a.txt".data (FSTree.file "hi".data)
          (FSEntries.cons "bundle.car".data (FSTree.file "old".data) FSEntries.nil))
    ∧ packDirectoryToCar (FSEntries.cons "a.txt".data (FSTree.file "hi".data) FSEntries.nil)
        "bundle.car".data "ipfs-manifest.json".data
      = packDirectoryToCar (FSEntries.cons "a.txt".data (FSTree.file "hi".data)
          (FSEntries.cons "bundle.car".data (FSTree.file "old".data) FSEntries.nil))
        "bundle.car".data "ipfs-manifest.json".data :=
  ⟨by decide,
    (c1_determinism (FSEntries.cons "a.txt".data (FSTree.file "hi".data) FSEntries.nil)
      (FSEntries.cons "a.txt".data (FSTree.file "hi".data)
        (FSEntries.cons "bundle.car".data (FSTree.file "old".data) FSEntries.nil))
      "bundle.car".data "ipfs-manifest.json".data (by decide)).1⟩

/-! ### C9: CAR writer block accounting -/

/-- **C9** — CAR writer block accounting: the CAR header declares exactly one root,
the directory root CID; the body is exactly the block store's keyed sequence, its
keys are pairwise distinct, and for every stored `(cid, bytes)` the body holds
exactly one block with that CID — that very pair. -/
theorem c9_car_blocks (es : FSEntries) (cp mp : List Char) (o : PackOut)
    (h : packDirectoryToCar es cp mp = Except.ok o) :
    o.car.roots = [o.rootCid]
    ∧ o.car.blocks = importStore (walkAux [] es)
    ∧ (o.car.blocks.map Prod.fst).Nodup
    ∧ ∀ k v, (k, v) ∈ importStore (walkAux [] es) →
        o.car.blocks.filter (fun b => b.1 == k) = [(k, v)] := by
  rw [packDirectoryToCar_ok es cp mp] at h
  injection h with h2
  subst h2
  refine ⟨rfl, rfl, importStore_keys_nodup _, ?_⟩
  intro k v hmem
  exact nodup_filter_eq_single _ k v (importStore_keys_nodup _) hmem

/-- Witness for C9 on a one-file directory. -/
theorem c9_car_blocks_witness :
    ∃ o, packDirectoryToCar (FSEntries.cons "a.txt".data (FSTree.file "hi".data) FSEntries.nil)
        "bundle.car".data "ipfs-manifest.json".data = Except.ok o
      ∧ o.car.roots = [o.rootCid] ∧ (o.car.blocks.map Prod.fst).Nodup :=
  ⟨_, packDirectoryToCar_ok _ _ _,
    (c9_car_blocks _ "bundle.car".data "ipfs-manifest.json".data _
      (packDirectoryToCar_ok _ _ _)).1,
    (c9_car_blocks _ "bundle.car".data "ipfs-manifest.json".data _
      (packDirectoryToCar_ok _ _ _)).2.2.1⟩

theorem lookupAssoc_of_mem :
    ∀ (m : List (List Char × List Char)) (k v : List Char),
      (m.map Prod.fst).Nodup → (k, v) ∈ m → lookupAssoc m k = some v
  | [], k, v => by
      intro _ h
      simp at h
  | e :: rest, k, v => by
      intro hnd hmem
      rw [List.map_cons, List.nodup_cons] at hnd
      rcases List.mem_cons.mp hmem with heq | hmem2
      · subst heq
        simp [lookupAssoc]
      · have hek : ¬ e.1 = k := by
          intro hk
          apply hnd.1
          have hmemk : k ∈ rest.map Prod.fst := List.mem_map_of_mem Prod.fst hmem2
          exact hk ▸ hmemk
        simp only [lookupAssoc, if_neg hek]
        exact lookupAssoc_of_mem rest k v hnd.2 hmem2

/-! ### C2: the root wrapper contract -/

/-- **C2** — Root wrapper contract: for a well-formed non-empty input directory the
importer's record stream contains exactly one record with the empty path; its CID is
the root of the wrapped DAG; `packDirectoryToCar` succeeds and returns that CID as
`rootCid` together with the given `carPath` and `manifestPath`, and `fileCids` maps
every other emitted path to its record's CID. -/
theorem c2_root_wrapper (es : FSEntries) (cp mp : List Char)
    (hwf : wfEntries es = true) (_hne : es ≠ FSEntries.nil) :
    ((importerRecords (walkAux [] es)).filter (fun r => r.1.isEmpty)).length = 1
    ∧ ∃ o, packDirectoryToCar es cp mp = Except.ok o
        ∧ ([], o.rootCid) ∈ importerRecords (walkAux [] es)
        ∧ o.rootCid = cidOfTrie (trieOf (walkAux [] es))
        ∧ o.carPath = cp ∧ o.manifestPath = mp
        ∧ ∀ p c, (p, c) ∈ importerRecords (walkAux [] es) → p ≠ [] →
            lookupAssoc o.fileCids p = some c := by
  have hfne : ∀ f ∈ walkAux [] es, f.1 ≠ [] := fun f hf =>
    walk_paths_ne_nil es f.1 f.2 hwf hf
  have hnd := walk_paths_nodup es hwf
  refine ⟨?_, _, packDirectoryToCar_ok es cp mp, ?_, rfl, rfl, rfl, ?_⟩
  · unfold importerRecords
    rw [List.filter_append]
    have h1 : ((walkAux [] es).map (fun f => (f.1, fileTopCid f.2))).filter
        (fun r => r.1.isEmpty) = [] := by
      rw [List.filter_eq_nil_iff]
      intro r hr
      rw [List.mem_map] at hr
      obtain ⟨f, hf, rfl⟩ := hr
      simp only [List.isEmpty_iff]
      exact hfne f hf
    rw [h1]
    simp
  · simp [importerRecords]
  · intro p c hmem hp
    unfold importerRecords at hmem
    rw [List.mem_append] at hmem
    rcases hmem with hm | hm
    · show lookupAssoc ((foldRecords (importerRecords (walkAux [] es))).2) p = some c
      rw [foldRecords_full (walkAux [] es) hfne hnd]
      apply lookupAssoc_of_mem _ p c ?_ hm
      rw [List.map_map]
      exact hnd
    · simp at hm
      exact absurd hm.1 hp

/-- Witness for C2 on a one-file directory. -/
theorem c2_root_wrapper_witness :
    ((importerRecords (walkAux [] (FSEntries.cons "a.txt".data (FSTree.file "hi".data)
        FSEntries.nil))).filter (fun r => r.1.isEmpty)).length = 1
    ∧ ∃ o, packDirectoryToCar (FSEntries.cons "a.txt".data (FSTree.file "hi".data)
          FSEntries.nil) "bundle.car".data "ipfs-manifest.json".data = Except.ok o
        ∧ ([], o.rootCid) ∈ importerRecords (walkAux [] (FSEntries.cons "a.txt".data
            (FSTree.file "hi".data) FSEntries.nil))
        ∧ o.rootCid = cidOfTrie (trieOf (walkAux [] (FSEntries.cons "a.txt".data
            (FSTree.file "hi".data) FSEntries.nil)))
        ∧ o.carPath = "bundle.car".data ∧ o.manifestPath = "ipfs-manifest.json".data
        ∧ ∀ p c, (p, c) ∈ importerRecords (walkAux [] (FSEntries.cons "a.txt".data
              (FSTree.file "hi".data) FSEntries.nil)) → p ≠ [] →
            lookupAssoc o.fileCids p = some c :=
  c2_root_wrapper (FSEntries.cons "a.txt".data (FSTree.file "hi".data) FSEntries.nil)
    "bundle.car".data "ipfs-manifest.json".data (by decide)
    (fun h => FSEntries.noConfusion h)

/-! ### C3: root-only exclusion -/

/-- **C3** — Root-only exclusion: the walker keeps a file exactly when the full walk
yields it and its forward-slash relative path is not excluded; a path is excluded
exactly when it is one of `bundle.car`, `ipfs-manifest.json`, `ipfs-debug.json`
verbatim (hence only at the directory root — a nested file's relative path contains
its directory prefix); and every walked file's path appears among the keys of
`manifest.files`. -/
theorem c3_exclusion :
    (∀ (pre : List Char) (es : FSEntries) (p b : List Char),
        (p, b) ∈ walkAux pre es ↔ ((p, b) ∈ allFilesAux pre es ∧ excludedAtRoot p = false))
    ∧ (∀ p : List Char, excludedAtRoot p = true ↔
        (p = "bundle.car".data ∨ p = "ipfs-manifest.json".data ∨ p = "ipfs-debug.json".data))
    ∧ (∀ (es : FSEntries) (cp mp p b : List Char) (o : PackOut), wfEntries es = true →
        packDirectoryToCar es cp mp = Except.ok o → (p, b) ∈ walkAux [] es →
        p ∈ o.fileCids.map Prod.fst) := by
  refine ⟨?_, ?_, ?_⟩
  · intro pre es p b
    rw [walkAux_eq_filter, List.mem_filter]
    simp
  · intro p
    simp [excludedAtRoot]
    tauto
  · intro es cp mp p b o hwf hok hmem
    rw [packDirectoryToCar_ok es cp mp] at hok
    injection hok with h2
    subst h2
    have hfne : ∀ f ∈ walkAux [] es, f.1 ≠ [] := fun f hf =>
      walk_paths_ne_nil es f.1 f.2 hwf hf
    have hnd := walk_paths_nodup es hwf
    show p ∈ ((foldRecords (importerRecords (walkAux [] es))).2).map Prod.fst
    rw [foldRecords_full (walkAux [] es) hfne hnd]
    show p ∈ ((walkAux [] es).map (fun f => (f.1, fileTopCid f.2))).map Prod.fst
    rw [List.map_map]
    exact List.mem_map_of_mem _ hmem

/-- Witness for C3: a root-level `bundle.car` is excluded while `sub/bundle.car` is
walked and lands in `manifest.files`. -/
theorem c3_exclusion_witness :
    ("sub/bundle.car".data, "y".data) ∈ walkAux []
        (FSEntries.cons "bundle.car".data (FSTree.file "x".data)
          (FSEntries.cons "sub".data
            (FSTree.dir (FSEntries.cons "bundle.car".data (FSTree.file "y".data)
              FSEntries.nil)) FSEntries.nil))
    ∧ excludedAtRoot "bundle.car".data = true
    ∧ ∃ o, packDirectoryToCar
          (FSEntries.cons "bundle.car".data (FSTree.file "x".data)
            (FSEntries.cons "sub".data
              (FSTree.dir (FSEntries.cons "bundle.car".data (FSTree.file "y".data)
                FSEntries.nil)) FSEntries.nil))
          "bundle.car".data "ipfs-manifest.json".data = Except.ok o
        ∧ "sub/bundle.car".data ∈ o.fileCids.map Prod.fst :=
  ⟨(c3_exclusion.1 [] _ "sub/bundle.car".data "y".data).mpr ⟨by decide, by decide⟩,
   by decide,
   _, packDirectoryToCar_ok _ _ _,
   c3_exclusion.2.2 _ "bundle.car".data "ipfs-manifest.json".data "sub/bundle.car".data
     "y".data _ (by decide) (packDirectoryToCar_ok _ _ _) (by decide)⟩

/-- Witness for C4 (amended): a two-key manifest with a `src` and an `href` binding
(one bare, one `./`-prefixed), and a one-key manifest whose key is bound twice —
each binding lands on its own key's `ipfs://` URL under the default style. -/
theorem c4_amended_witness :
    rewriteHtml UrlStyle.schemeFile "R".data
        [("app.js".data, "CX".data), ("b.css".data, "CY".data)]
        "<p src=\"app.js\" href=\"./b.css\">".data
      = "<p src=\"ipfs://CX\" href=\"ipfs://CY\">".data
    ∧ rewriteHtml UrlStyle.schemeFile "R".data [("a.js".data, "Z".data)]
        "<p src=\"a.js\" href=\"./a.js\">".data
      = "<p src=\"ipfs://Z\" href=\"ipfs://Z\">".data := by
  constructor
  · have h := c4_amended UrlStyle.schemeFile "R".data
      [("app.js".data, "CX".data), ("b.css".data, "CY".data)]
      [⟨"<p ".data, "src".data, '"', "app.js".data, "app.js".data⟩,
       ⟨" ".data, "href".data, '"', "b.css".data, "./b.css".data⟩]
      ">".data (by decide) (by decide) (by decide) (by decide)
    have e1 : renderDoc vInit
        [⟨"<p ".data, "src".data, '"', "app.js".data, "app.js".data⟩,
         ⟨" ".data, "href".data, '"', "b.css".data, "./b.css".data⟩] ">".data
        = "<p src=\"app.js\" href=\"./b.css\">".data := by decide
    rw [← e1, h.1]
    decide
  · have h := c4_amended UrlStyle.schemeFile "R".data [("a.js".data, "Z".data)]
      [⟨"<p ".data, "src".data, '"', "a.js".data, "a.js".data⟩,
       ⟨" ".data, "href".data, '"', "a.js".data, "./a.js".data⟩]
      ">".data (by decide) (by decide) (by decide) (by decide)
    have e1 : renderDoc vInit
        [⟨"<p ".data, "src".data, '"', "a.js".data, "a.js".data⟩,
         ⟨" ".data, "href".data, '"', "a.js".data, "./a.js".data⟩] ">".data
        = "<p src=\"a.js\" href=\"./a.js\">".data := by decide
    rw [← e1, h.1]
    decide

end IpfsPack
